import Mathlib

/-!
Verification development for the advanced-kanban layout and drag-reflow
engine.  The definitions below are a shallow embedding of the TypeScript
source: fractions are rationals, spans and indices are naturals, and the
JS indices that can be negative (results of parsing droppable ids) are
integers.  Functions marked "Modelled from the spec" embed utilities that
the repository imports from `@/lib/boardUtils` but whose definitions are
not part of the available sources; they are written from the
specification text (spec.md §4.1, §4.3, §8).
-/

namespace Kanban

/-- Translation of `clamp` (src/lib/boardUtils.ts lines 1-3),
`Math.min(Math.max(value, min), max)`, at the integer type used for
cell/column indices. -/
def iclamp (v lo hi : Int) : Int := min (max v lo) hi

/-- The same `clamp` at the rational type used for fractions. -/
def qclamp (v lo hi : ℚ) : ℚ := min (max v lo) hi

/-- JS array access `l[i]` with a possibly negative index: `none` when the
index is not a valid position (models `undefined`). -/
def listGetInt? (l : List α) (i : Int) : Option α :=
  if i < 0 then none else l[i.toNat]?

/-- A cell of the quadrant-board variant (type `Cell` in src/README.md):
only `span` is relevant to the layout engine, so `id` and `title` are
dropped from the embedding. -/
structure Cell where
  span : Nat
deriving DecidableEq

/-- A column of the quadrant-board variant: width fraction and cells
(`id` dropped). -/
structure Column where
  frac : ℚ
  cells : List Cell
deriving DecidableEq

/-- The quadrant-board state (type `BoardState` in src/README.md); the
`cardsByCell` map is irrelevant to the layout invariants and omitted. -/
structure BoardState where
  columns : List Column
  rowFracs : List ℚ
deriving DecidableEq

/-- Modelled from the spec: `sumSpans` (§4.1), the span total of a list of
cells.  The function is imported from `@/lib/boardUtils` but its
definition is not among the sources. -/
def sumSpans (cells : List Cell) : Nat := (cells.map Cell.span).sum

/-- Sum of the column width fractions. -/
def sumFracs (columns : List Column) : ℚ := (columns.map Column.frac).sum

/-- Modelled from the spec: `normalizeFracs` (§4.1) rescales every frac by
`1/total`; when `total == 0` the input is returned unchanged.  Imported
from `@/lib/boardUtils`, definition not among the sources. -/
def normalizeFracs (columns : List Column) : List Column :=
  let total := sumFracs columns
  if total = 0 then columns
  else columns.map (fun c => { c with frac := c.frac / total })

/-- The span stored at index `i`, defaulting to 1 out of range (used only
to state capacities of the clamping pass). -/
def spanAt (spans : List Nat) (i : Nat) : Nat := (spans[i]?).getD 1

/-- One cession step of the overflow pass of `clampSpansToRows` (spec
§4.1): the cell at `i` cedes `min overflow (span - 1)`, never dropping
below span 1. -/
def cedeAt (spans : List Nat) (i : Nat) (overflow : Nat) : List Nat × Nat :=
  match spans[i]? with
  | none => (spans, overflow)
  | some s =>
    (spans.set i (s - min overflow (s - 1)), overflow - min overflow (s - 1))

/-- The overflow-reduction pass of `clampSpansToRows` (spec §4.1): visit
the indices of `order`, each ceding `min overflow (span - 1)`, stopping
when the overflow reaches 0. -/
def reducePass (spans : List Nat) (order : List Nat) (overflow : Nat) : List Nat × Nat :=
  match order with
  | [] => (spans, overflow)
  | i :: rest =>
    if overflow = 0 then (spans, 0)
    else reducePass (cedeAt spans i overflow).1 rest (cedeAt spans i overflow).2

/-- Visit order of the reduction pass: index 0 upward, with
`preserveIndex` skipped until last (spec §4.1). -/
def passOrder (n : Nat) (preserveIndex : Option Nat) : List Nat :=
  match preserveIndex with
  | none => List.range n
  | some p => if p < n then (List.range n).filter (fun i => i != p) ++ [p] else List.range n

/-- The cell that receives a deficit: `preserveIndex` when given and in
range, else the last cell (spec §4.1). -/
def preserveTarget (n : Nat) (preserveIndex : Option Nat) : Nat :=
  match preserveIndex with
  | some p => if p < n then p else n - 1
  | none => n - 1

/-- Add `d` row units to the span at index `i`. -/
def addAt (spans : List Nat) (i : Nat) (d : Nat) : List Nat :=
  match spans[i]? with
  | none => spans
  | some s => spans.set i (s + d)

/-- Forcible reduction of the last cell by the remaining overflow, clamped
to a minimum span of 1 (spec §4.1). -/
def forceReduceLast (spans : List Nat) (overflow : Nat) : List Nat :=
  match spans[spans.length - 1]? with
  | none => spans
  | some s => spans.set (spans.length - 1) (max 1 (s - overflow))

/-- Modelled from the spec: `clampSpansToRows` (§4.1) on the underlying
span lists.  Spans are naturals, so the "round to nearest integer,
minimum 1" step reduces to taking `max 1`.  Equal totals are returned
as-is; a deficit goes wholly to the preserve-or-last cell; an overflow is
ceded greedily in `passOrder`, with a forcible reduction of the last cell
and a final safety pass as described in the spec. -/
def clampSpanList (spans0 : List Nat) (rows : Nat) (preserveIndex : Option Nat) : List Nat :=
  if spans0.isEmpty then spans0 else
  let spans := spans0.map (fun s => max 1 s)
  let total := spans.sum
  if total = rows then spans
  else if total < rows then
    addAt spans (preserveTarget spans.length preserveIndex) (rows - total)
  else
    let st := reducePass spans (passOrder spans.length preserveIndex) (total - rows)
    let spans2 := if st.2 = 0 then st.1 else forceReduceLast st.1 st.2
    let total2 := spans2.sum
    if total2 < rows then addAt spans2 (preserveTarget spans2.length preserveIndex) (rows - total2)
    else spans2

/-- Modelled from the spec: `clampSpansToRows` (§4.1) at the cell type. -/
def clampSpansToRows (cells : List Cell) (rows : Nat) (preserveIndex : Option Nat) : List Cell :=
  (clampSpanList (cells.map Cell.span) rows preserveIndex).map Cell.mk

/-- Modelled from the spec: `absorbSpanAfterRemoval` (§4.1): after a cell
is excised, its span is added to the cell immediately preceding the
removed position, or to the first cell when the removed one was first.
Imported from `@/lib/boardUtils`, definition not among the sources. -/
def absorbSpanAfterRemoval (cells : List Cell) (removedIndex removedSpan : Nat) : List Cell :=
  let i := if removedIndex = 0 then 0 else removedIndex - 1
  match cells[i]? with
  | none => cells
  | some c => cells.set i { c with span := c.span + removedSpan }

/-- JS `list.splice(from, 1)`: removes and returns the element at `from`
when it exists (`none` models `moved === undefined`). -/
def spliceOut (l : List α) (i : Nat) : Option (α × List α) :=
  match l[i]? with
  | none => none
  | some a => some (a, l.eraseIdx i)

/-- Modelled from the spec: `insertCellWithClamp` (§4.1): insert the new
cell at a bounded index, then reclamp the spans with `preserveIndex` set
to the insertion index.  Imported from `@/lib/boardUtils`, definition not
among the sources. -/
def insertCellWithClamp (cells : List Cell) (insertIndex : Int) (newCell : Cell)
    (rows : Nat) : List Cell :=
  let idx := (iclamp insertIndex 0 (cells.length : Int)).toNat
  clampSpansToRows (cells.insertIdx idx newCell) rows (some idx)

/-- Translation of `arrayMove` (src/lib/boardUtils.ts lines 5-14).  At
naturals the `to < 0` bound of the source is unreachable, leaving the
upper bound `next.length`. -/
def arrayMove (items : List α) (fr toIdx : Nat) : List α :=
  match spliceOut items fr with
  | none => items
  | some (moved, next) =>
    let bounded := if toIdx > next.length then next.length else toIdx
    next.insertIdx bounded moved

/-- The four quadrant directions (type `QuadrantDirection` in
src/README.md). -/
inductive Direction where
  | top
  | bottom
  | left
  | right
deriving DecidableEq

/-- A parsed quadrant locator (`QuadrantIdentifier`,
src/lib/boardUtils.ts lines 49-53); the parsed indices are JS numbers and
may be negative, hence integers. -/
structure QuadrantIdentifier where
  columnIndex : Int
  cellIndex : Int
  direction : Direction
deriving DecidableEq

/-- `neighbor ? neighbor.cells.length : 0` of the resolver, as an
integer. -/
def cellsLenAt (columns : List Column) (i : Int) : Int :=
  match listGetInt? columns i with
  | some c => (c.cells.length : Int)
  | none => 0

/-- The direction switch of `resolveDestination`
(src/lib/boardUtils.ts lines 161-196): the `(columnIndex, insertIndex)`
pair before the same-column correction. -/
def directionStep (columns : List Column) (q : QuadrantIdentifier) : Int × Int :=
  match q.direction with
  | .top => (q.columnIndex, q.cellIndex)
  | .bottom => (q.columnIndex, q.cellIndex + 1)
  | .left =>
    let ci := q.columnIndex - 1
    if ci < 0 then (q.columnIndex, q.cellIndex)
    else (ci, iclamp q.cellIndex 0 (cellsLenAt columns ci))
  | .right =>
    let ci := q.columnIndex + 1
    if ci ≥ (columns.length : Int) then
      (q.columnIndex, iclamp (q.cellIndex + 1) 0 (cellsLenAt columns q.columnIndex))
    else (ci, iclamp q.cellIndex 0 (cellsLenAt columns ci))

/-- The same-column index correction of `resolveDestination`
(src/lib/boardUtils.ts lines 198-202). -/
def sameColumnFix (sourceColumnIndex : Int) (sourceIndex : Nat) (p : Int × Int) : Int × Int :=
  if p.1 = sourceColumnIndex ∧ p.2 > (sourceIndex : Int) then (p.1, p.2 - 1) else p

/-- Translation of `resolveDestination` (src/lib/boardUtils.ts lines
147-208): `none` when the target column does not exist, otherwise the
direction-table pair with the same-column correction applied. -/
def resolveDestination (columns : List Column) (q : QuadrantIdentifier)
    (sourceColumnIndex : Int) (sourceIndex : Nat) : Option (Int × Int) :=
  match listGetInt? columns q.columnIndex with
  | none => none
  | some _ => some (sameColumnFix sourceColumnIndex sourceIndex (directionStep columns q))

/-- Direction table as worded by the specification (§4.2) and claim C2;
kept separate from `directionStep` so that the code's switch can be
proved to refine it. -/
def specDirectionTable (columns : List Column) (q : QuadrantIdentifier) : Int × Int :=
  match q.direction with
  | .top => (q.columnIndex, q.cellIndex)
  | .bottom => (q.columnIndex, q.cellIndex + 1)
  | .left =>
    if q.columnIndex = 0 then (q.columnIndex, q.cellIndex)
    else (q.columnIndex - 1, iclamp q.cellIndex 0 (cellsLenAt columns (q.columnIndex - 1)))
  | .right =>
    if q.columnIndex = (columns.length : Int) - 1 then (q.columnIndex, q.cellIndex + 1)
    else (q.columnIndex + 1, iclamp q.cellIndex 0 (cellsLenAt columns (q.columnIndex + 1)))

/-- Translation of `handleAddColumn` (src/lib/boardUtils.ts lines
493-536); the new column holds one cell spanning all rows, with frac
`1/(n+1)`, existing columns shrunk by `1 - newFrac` and the set
renormalized (cards omitted). -/
def handleAddColumn (b : BoardState) : BoardState :=
  let rowsCount := b.rowFracs.length
  let newFrac : ℚ := if b.columns.length = 0 then 1 else 1 / ((b.columns.length : ℚ) + 1)
  let newColumn : Column := { frac := newFrac, cells := [{ span := rowsCount }] }
  if b.columns.length = 0 then { b with columns := [newColumn] }
  else
    let shrinkFactor := 1 - newFrac
    let shrunk := (b.columns.map (fun c => { c with frac := c.frac * shrinkFactor })) ++ [newColumn]
    { b with columns := normalizeFracs shrunk }

/-- Translation of `handleDeleteCell` of the quadrant variant
(src/lib/boardUtils.ts lines 581-631): missing column or cell is a no-op;
removing the last cell deletes the column and renormalizes; otherwise the
removed span is absorbed by a sibling (cards omitted). -/
def handleDeleteCell (b : BoardState) (columnIndex cellIndex : Nat) : BoardState :=
  match b.columns[columnIndex]? with
  | none => b
  | some targetColumn =>
    match spliceOut targetColumn.cells cellIndex with
    | none => b
    | some (removedCell, cells) =>
      if cells.isEmpty then
        { b with columns := normalizeFracs (b.columns.eraseIdx columnIndex) }
      else
        let newCol :=
          { targetColumn with cells := absorbSpanAfterRemoval cells cellIndex removedCell.span }
        { b with columns := b.columns.set columnIndex newCol }

/-- The same-column branch of `handleDragEnd` (src/lib/boardUtils.ts
lines 662-694): splice the cell out and reinsert it at the clamped
destination index within the same column. -/
def sameColumnReorder (b : BoardState) (sc : Nat) (si : Nat) (insertIndex : Int) : BoardState :=
  match b.columns[sc]? with
  | none => b
  | some column =>
    match spliceOut column.cells si with
    | none => b
    | some (movedCell, cells) =>
      let idx := (iclamp insertIndex 0 (cells.length : Int)).toNat
      { b with columns := b.columns.set sc { column with cells := cells.insertIdx idx movedCell } }

/-- Intermediate data of the cross-column branch of `handleDragEnd`:
the working columns after source removal, the moved cell, whether the
source column was deleted, and the adjusted clamped destination. -/
structure DragParts where
  working : List Column
  movedCell : Cell
  removedColumn : Bool
  destIdx : Nat
  target : Column

/-- Source-column removal of the cross-column branch
(src/lib/boardUtils.ts lines 711-724): the source column is deleted when
it would become empty, otherwise the moved cell's span is absorbed by a
sibling. -/
def dragWorking (b : BoardState) (scn : Nat) (srcCol : Column) (si : Nat) (moved : Cell)
    (rest : List Cell) : List Column × Bool :=
  if rest.isEmpty then (b.columns.eraseIdx scn, true)
  else (b.columns.set scn { srcCol with cells := absorbSpanAfterRemoval rest si moved.span },
    false)

/-- Destination-index adjustment and clamp of the cross-column branch
(src/lib/boardUtils.ts lines 726-734). -/
def dragDestIdx (wr : List Column × Bool) (sc dc : Int) : Nat :=
  (iclamp (if wr.2 ∧ dc > sc then dc - 1 else dc) 0 (max ((wr.1.length : Int) - 1) 0)).toNat

/-- The source-removal and destination-adjustment steps of the
cross-column branch of `handleDragEnd` (src/lib/boardUtils.ts lines
696-739). -/
def dragCrossParts (b : BoardState) (sc : Int) (si : Nat) (dc : Int) : Option DragParts :=
  match listGetInt? b.columns sc with
  | none => none
  | some sourceColumn =>
    match spliceOut sourceColumn.cells si with
    | none => none
    | some (movedCell, rest) =>
      match (dragWorking b sc.toNat sourceColumn si movedCell rest).1[dragDestIdx
          (dragWorking b sc.toNat sourceColumn si movedCell rest) sc dc]? with
      | none => none
      | some target =>
        some ⟨(dragWorking b sc.toNat sourceColumn si movedCell rest).1, movedCell,
          (dragWorking b sc.toNat sourceColumn si movedCell rest).2,
          dragDestIdx (dragWorking b sc.toNat sourceColumn si movedCell rest) sc dc, target⟩

/-- The state transform of `handleDragEnd` after locator parsing
(src/lib/boardUtils.ts lines 650-761). -/
def dragEndCore (b : BoardState) (q : QuadrantIdentifier) (sourceColumnIndex : Int)
    (sourceIndex : Nat) : BoardState :=
  match resolveDestination b.columns q sourceColumnIndex sourceIndex with
  | none => b
  | some (dc, di) =>
    if dc = sourceColumnIndex then
      sameColumnReorder b dc.toNat sourceIndex di
    else
      match dragCrossParts b sourceColumnIndex sourceIndex dc with
      | none => b
      | some parts =>
        let nextCells := insertCellWithClamp parts.target.cells di parts.movedCell b.rowFracs.length
        let working2 := parts.working.set parts.destIdx { parts.target with cells := nextCells }
        { b with columns := if parts.removedColumn then normalizeFracs working2 else working2 }

/-- JS `id.split(sep)` for a one-character separator, structurally
recursive so that concrete runs reduce in the kernel. -/
def splitOnChar (sep : Char) : List Char → List (List Char)
  | [] => [[]]
  | c :: rest =>
    let r := splitOnChar sep rest
    if c = sep then [] :: r
    else
      match r with
      | [] => [[c]]
      | h :: t => (c :: h) :: t

/-- Decimal digits of a JS integer literal, with accumulator; `none`
models NaN on a non-digit. -/
def digitsValAux (acc : Nat) : List Char → Option Nat
  | [] => some acc
  | c :: rest =>
    if c.isDigit then digitsValAux (acc * 10 + (c.toNat - Char.toNat '0')) rest
    else none

/-- A non-empty all-digit run, else `none`. -/
def digitsStrict : List Char → Option Nat
  | [] => none
  | cs => digitsValAux 0 cs

/-- Model of the JS `Number()` conversion used on locator pieces,
restricted to optionally signed decimal integer literals; the empty
(trimmed) string converts to 0 as in JS, anything else non-numeric is
`none` (NaN).  Fractional, hexadecimal and exponent forms of JS are not
representable as list indices and are treated as non-numeric. -/
def jsNumberInt (cs : List Char) : Option Int :=
  let t := ((cs.dropWhile Char.isWhitespace).reverse.dropWhile Char.isWhitespace).reverse
  match t with
  | [] => some 0
  | c :: rest =>
    if c = '-' then (digitsStrict rest).map (fun n => -(n : Int))
    else if c = '+' then (digitsStrict rest).map (fun n => (n : Int))
    else (digitsStrict t).map (fun n => (n : Int))

/-- The word `quad`. -/
def quadTag : List Char := ['q', 'u', 'a', 'd']

/-- The word `col`. -/
def colTag : List Char := ['c', 'o', 'l']

/-- The word `top`. -/
def topWord : List Char := ['t', 'o', 'p']

/-- The word `bottom`. -/
def bottomWord : List Char := ['b', 'o', 't', 't', 'o', 'm']

/-- The word `left`. -/
def leftWord : List Char := ['l', 'e', 'f', 't']

/-- The word `right`. -/
def rightWord : List Char := ['r', 'i', 'g', 'h', 't']

/-- The direction-name check of `parseQuadrantId`
(src/lib/boardUtils.ts lines 65-72). -/
def parseDirection (s : List Char) : Option Direction :=
  if s = topWord then some .top
  else if s = bottomWord then some .bottom
  else if s = leftWord then some .left
  else if s = rightWord then some .right
  else none

/-- Translation of `parseQuadrantId` (src/lib/boardUtils.ts lines 55-78):
split on `:`, require the `quad` tag, numeric column and cell parts and a
valid direction word; destructuring ignores extra parts, and a missing
part converts to NaN. -/
def parseQuadrantId (id : List Char) : Option QuadrantIdentifier :=
  let parts := splitOnChar ':' id
  if parts[0]? ≠ some quadTag then none
  else
    match (parts[1]?).bind jsNumberInt, (parts[2]?).bind jsNumberInt,
        (parts[3]?).bind parseDirection with
    | some ci, some celli, some dir => some ⟨ci, celli, dir⟩
    | _, _, _ => none

/-- Translation of `parseColumnDroppableId` (src/lib/boardUtils.ts lines
80-87): split on `-`, require the `col` tag and a numeric index part. -/
def parseColumnDroppableId (id : List Char) : Option Int :=
  let parts := splitOnChar '-' id
  if parts[0]? ≠ some colTag then none
  else (parts[1]?).bind jsNumberInt

/-- A drag-and-drop location as delivered by the gesture library: a
droppable id and an index. -/
structure DropLocation where
  droppableId : List Char
  index : Nat
deriving DecidableEq

/-- A `DropResult` of the gesture library: optional destination and a
source location. -/
structure DropResult where
  destination : Option DropLocation
  source : DropLocation
deriving DecidableEq

/-- Translation of `handleDragEnd` (src/lib/boardUtils.ts lines 633-764)
including the locator-parsing guards: a missing destination, an
unparseable destination locator or an unparseable source locator is a
no-op. -/
def handleDragEnd (b : BoardState) (result : DropResult) : BoardState :=
  match result.destination with
  | none => b
  | some dest =>
    match parseQuadrantId dest.droppableId with
    | none => b
    | some quadrant =>
      match parseColumnDroppableId result.source.droppableId with
      | none => b
      | some sourceColumnIndex => dragEndCore b quadrant sourceColumnIndex result.source.index

/-- Modelled from the spec: the add-cell command (§3 lifecycle, §6
inbound commands).  The quadrant variant in the sources has no add-cell
handler; following §4.1 the new cell (advisory span 1) is appended
through `insertCellWithClamp`. -/
def handleAddCellSpec (b : BoardState) (columnIndex : Nat) : BoardState :=
  match b.columns[columnIndex]? with
  | none => b
  | some column =>
    let newCell : Cell := { span := 1 }
    let extended :=
      { column with cells :=
          insertCellWithClamp column.cells (column.cells.length : Int) newCell b.rowFracs.length }
    { b with columns := b.columns.set columnIndex extended }

/-- Modelled from the spec: the delete-column command (§8, §4.3): remove
the column and renormalize the remaining fracs.  The quadrant variant in
the sources deletes columns only through last-cell removal, which takes
the same normalization path (src/lib/boardUtils.ts lines 597-609). -/
def handleDeleteColumnSpec (b : BoardState) (columnIndex : Nat) : BoardState :=
  if columnIndex < b.columns.length then
    { b with columns := normalizeFracs (b.columns.eraseIdx columnIndex) }
  else b

/-- The board commands quantified over by the invariant-preservation
property (spec §8). -/
inductive Command where
  | addColumn
  | addCell (columnIndex : Nat)
  | deleteCell (columnIndex cellIndex : Nat)
  | deleteColumn (columnIndex : Nat)
  | dragMove (q : QuadrantIdentifier) (sourceColumnIndex : Int) (sourceIndex : Nat)
deriving DecidableEq

/-- One command applied to a board. -/
def applyCommand (b : BoardState) : Command → BoardState
  | .addColumn => handleAddColumn b
  | .addCell i => handleAddCellSpec b i
  | .deleteCell i j => handleDeleteCell b i j
  | .deleteColumn i => handleDeleteColumnSpec b i
  | .dragMove q sc si => dragEndCore b q sc si

/-- A command sequence applied in order. -/
def applyCommands (b : BoardState) (cmds : List Command) : BoardState :=
  cmds.foldl applyCommand b

/-- Invariants I1-I5 of spec §3 together with the §3 data-model
positivity of column fracs (`frac` is a positive number): I1 fraction sum
(exact, hence within any tolerance), I2 row-fraction sum, I3 span totals,
I4 minimum spans, I5 no empty columns. -/
def ValidBoard (b : BoardState) : Prop :=
  (b.columns ≠ [] → sumFracs b.columns = 1) ∧
  b.rowFracs.sum = 1 ∧
  (∀ c ∈ b.columns, sumSpans c.cells = b.rowFracs.length) ∧
  (∀ c ∈ b.columns, ∀ cell ∈ c.cells, 1 ≤ cell.span) ∧
  (∀ c ∈ b.columns, c.cells ≠ []) ∧
  (∀ c ∈ b.columns, 0 < c.frac)

instance (b : BoardState) : Decidable (ValidBoard b) := by
  unfold ValidBoard
  infer_instance

/-- Whether a drag command's insertion, if any, lands in a column with
capacity for one more cell (at most `rows - 1` cells). -/
def insertFits (b : BoardState) (q : QuadrantIdentifier) (sc : Int) (si : Nat) : Bool :=
  match resolveDestination b.columns q sc si with
  | none => true
  | some (dc, _) =>
    if dc = sc then true
    else
      match dragCrossParts b sc si dc with
      | none => true
      | some parts => parts.target.cells.length + 1 ≤ b.rowFracs.length

/-- Whether a command's cell insertion, if any, lands in a column with
capacity for one more cell. -/
def safeCommand (b : BoardState) : Command → Bool
  | .dragMove q sc si => insertFits b q sc si
  | .addCell i =>
    match b.columns[i]? with
    | none => true
    | some c => c.cells.length + 1 ≤ b.rowFracs.length
  | _ => true

/-- Whether every command of the sequence is capacity-safe in the state
it is applied to. -/
def safeCommands : BoardState → List Command → Bool
  | _, [] => true
  | b, c :: rest => safeCommand b c && safeCommands (applyCommand b c) rest

/-- Positions `i` and `i + 1` receive the fracs `l` and `r`, all other
columns unchanged: the column map inside the pointer-move handler of
`startColumnResize` (src/lib/boardUtils.ts lines 794-808). -/
def applyPairFracs (columns : List Column) (i : Nat) (l r : ℚ) : List Column :=
  match columns, i with
  | [], _ => []
  | c :: rest, 0 =>
    { c with frac := l } ::
      (match rest with
       | [] => []
       | c2 :: rest2 => { c2 with frac := r } :: rest2)
  | c :: rest, k + 1 => c :: applyPairFracs rest k l r

/-- One pointer-move sample of `startColumnResize`
(src/lib/boardUtils.ts lines 778-811): the pixel delta becomes a
fractional delta, the snapshotted first frac is shifted and clamped to
`[effectiveMin, total - effectiveMin]` with
`effectiveMin = min minFrac (total/2)`, and the second frac receives the
remainder. -/
def columnResizeSample (initialFracs : List ℚ) (index : Nat) (minFrac deltaPx width : ℚ)
    (columns : List Column) : List Column :=
  let deltaFrac := deltaPx / width
  let total := initialFracs.getD index 0 + initialFracs.getD (index + 1) 0
  let effectiveMin := min minFrac (total / 2)
  let nextLeft := qclamp (initialFracs.getD index 0 + deltaFrac) effectiveMin (total - effectiveMin)
  let nextRight := total - nextLeft
  applyPairFracs columns index nextLeft nextRight

/-- The snapshotted combined share of the resized pair (`total` in
`startColumnResize`). -/
def resizePairTotal (initialFracs : List ℚ) (index : Nat) : ℚ :=
  initialFracs.getD index 0 + initialFracs.getD (index + 1) 0

/-- The effective minimum width fraction for one side of the resized
pair (`effectiveMin` in `startColumnResize`). -/
def resizeEffectiveMin (initialFracs : List ℚ) (index : Nat) (minFrac : ℚ) : ℚ :=
  min minFrac (resizePairTotal initialFracs index / 2)

/-- The clamped new frac of the left column of the resized pair
(`nextLeft` in `startColumnResize`). -/
def resizeNextLeft (initialFracs : List ℚ) (index : Nat) (minFrac deltaPx width : ℚ) : ℚ :=
  qclamp (initialFracs.getD index 0 + deltaPx / width)
    (resizeEffectiveMin initialFracs index minFrac)
    (resizePairTotal initialFracs index - resizeEffectiveMin initialFracs index minFrac)

/-- One pointer-move sample of `startRowResize`
(src/lib/boardUtils.ts lines 837-855): identical arithmetic on the
snapshotted pair `initialFracs[index]`, `initialFracs[index + 1]`, the
result written into positions `index` and `index + 1` of the current
row-fraction list. -/
def rowResizeSample (initialFracs : List ℚ) (index : Nat) (minFrac deltaPx height : ℚ)
    (rowFracs : List ℚ) : List ℚ :=
  let deltaFrac := deltaPx / height
  let upper := initialFracs.getD index 0
  let lower := initialFracs.getD (index + 1) 0
  let total := upper + lower
  let effectiveMin := min minFrac (total / 2)
  let nextUpper := qclamp (upper + deltaFrac) effectiveMin (total - effectiveMin)
  let nextLower := total - nextUpper
  (rowFracs.set index nextUpper).set (index + 1) nextLower

/-- A task of the simple-board variant (`Task` in src/README.md),
identity only. -/
structure Task where
  id : Nat
deriving DecidableEq

/-- A cell of the simple-board variant: identity and a continuous height
weight (`title` dropped). -/
structure SimpleCell where
  id : Nat
  height : ℚ
deriving DecidableEq

/-- A column of the simple-board variant: identity and cells (`title`
dropped); no width fraction. -/
structure SimpleColumn where
  id : Nat
  cells : List SimpleCell
deriving DecidableEq

/-- The simple-board state (`BoardState` of the height-weight variant in
src/README.md); the tasks map is an association list keyed by cell
identity. -/
structure SimpleBoardState where
  columns : List SimpleColumn
  tasksByCell : List (Nat × List Task)
deriving DecidableEq

/-- JS object lookup `tasksByCell[cellId]`. -/
def lookupTasks (m : List (Nat × List Task)) (k : Nat) : Option (List Task) :=
  (m.find? (fun e => e.1 == k)).map Prod.snd

/-- JS `delete tasksByCell[cellId]`. -/
def eraseTasksKey (m : List (Nat × List Task)) (k : Nat) : List (Nat × List Task) :=
  m.filter (fun e => e.1 != k)

/-- Translation of `handleDeleteCell` of the simple-board variant
(src/unnamed/part_001 lines 406-424): filter the cell out of the matching
column (columns are never deleted here) and drop the tasks entry. -/
def simpleDeleteCell (b : SimpleBoardState) (columnId cellId : Nat) : SimpleBoardState :=
  { columns := b.columns.map (fun column =>
      if column.id = columnId then
        { column with cells := column.cells.filter (fun cell => cell.id != cellId) }
      else column),
    tasksByCell := eraseTasksKey b.tasksByCell cellId }

/-- A concrete simple board: two columns, the first holding two cells. -/
def simpleBoardW : SimpleBoardState :=
  { columns := [{ id := 0, cells := [{ id := 0, height := 1 }, { id := 1, height := 1 }] }, { id := 1, cells := [{ id := 2, height := 1 }] }], tasksByCell := [(0, []), (1, [])] }

/-! ### Generic list lemmas -/

theorem mem_of_getElem?_some {l : List α} {i : ℕ} {x : α} (h : l[i]? = some x) : x ∈ l := by
  induction l generalizing i with
  | nil => simp at h
  | cons a t ih =>
    cases i with
    | zero =>
      simp only [List.getElem?_cons_zero, Option.some.injEq] at h
      exact h ▸ List.mem_cons_self a t
    | succ k =>
      simp only [List.getElem?_cons_succ] at h
      exact List.mem_cons_of_mem _ (ih h)

theorem lt_length_of_getElem?_some {l : List α} {i : ℕ} {x : α} (h : l[i]? = some x) :
    i < l.length := by
  by_contra hc
  rw [List.getElem?_eq_none (Nat.le_of_not_lt hc)] at h
  exact Option.noConfusion h

theorem sum_set_add {M : Type u} [AddCommMonoid M] {l : List M} {i : ℕ} {x : M} (v : M)
    (h : l[i]? = some x) : (l.set i v).sum + x = l.sum + v := by
  induction l generalizing i with
  | nil => simp at h
  | cons a t ih =>
    cases i with
    | zero =>
      simp only [List.getElem?_cons_zero, Option.some.injEq] at h
      subst h
      simp only [List.set_cons_zero, List.sum_cons]
      abel
    | succ k =>
      simp only [List.getElem?_cons_succ] at h
      have h2 := ih h
      simp only [List.set_cons_succ, List.sum_cons]
      rw [add_assoc, h2, ← add_assoc]

theorem sum_eraseIdx_add {M : Type u} [AddCommMonoid M] {l : List M} {i : ℕ} {x : M}
    (h : l[i]? = some x) : (l.eraseIdx i).sum + x = l.sum := by
  induction l generalizing i with
  | nil => simp at h
  | cons a t ih =>
    cases i with
    | zero =>
      simp only [List.getElem?_cons_zero, Option.some.injEq] at h
      subst h
      simp [List.eraseIdx_cons_zero, List.sum_cons, add_comm]
    | succ k =>
      simp only [List.getElem?_cons_succ] at h
      have h2 := ih h
      simp only [List.eraseIdx_cons_succ, List.sum_cons]
      rw [add_assoc, h2]

theorem perm_cons_eraseIdx {l : List α} {i : ℕ} {x : α} (h : l[i]? = some x) :
    l.Perm (x :: l.eraseIdx i) := by
  induction l generalizing i with
  | nil => simp at h
  | cons a t ih =>
    cases i with
    | zero =>
      simp only [List.getElem?_cons_zero, Option.some.injEq] at h
      subst h
      simp [List.eraseIdx_cons_zero]
    | succ k =>
      simp only [List.getElem?_cons_succ] at h
      simp only [List.eraseIdx_cons_succ]
      exact ((ih h).cons a).trans (List.Perm.swap x a _)

theorem sum_insertIdx_add {M : Type u} [AddCommMonoid M] {l : List M} {i : ℕ}
    (h : i ≤ l.length) (x : M) : (l.insertIdx i x).sum = l.sum + x := by
  rw [(List.perm_insertIdx x l h).sum_eq, List.sum_cons, add_comm]

theorem sum_eq_length_of_all_one {l : List ℕ} (h : ∀ x ∈ l, x = 1) : l.sum = l.length := by
  induction l with
  | nil => rfl
  | cons a t ih =>
    have ha := h a (List.mem_cons_self a t)
    have ht := ih (fun x hx => h x (List.mem_cons_of_mem a hx))
    simp only [List.sum_cons, List.length_cons, ha, ht]
    omega

/-! ### Lemmas about the span-clamping machinery -/

theorem spanAt_one_le {s : List ℕ} (hs : ∀ x ∈ s, 1 ≤ x) (j : ℕ) : 1 ≤ spanAt s j := by
  unfold spanAt
  cases h : s[j]? with
  | none => simp
  | some v => simpa using hs v (mem_of_getElem?_some h)

theorem cedeAt_length (s : List ℕ) (i ov : ℕ) : (cedeAt s i ov).1.length = s.length := by
  unfold cedeAt
  cases h : s[i]? <;> simp

theorem cedeAt_one_le {s : List ℕ} (hs : ∀ x ∈ s, 1 ≤ x) (i ov : ℕ) :
    ∀ x ∈ (cedeAt s i ov).1, 1 ≤ x := by
  unfold cedeAt
  cases h : s[i]? with
  | none => simpa using hs
  | some v =>
    intro x hx
    simp only at hx
    rcases List.mem_or_eq_of_mem_set hx with hmem | hval
    · exact hs x hmem
    · have hv := hs v (mem_of_getElem?_some h)
      omega

theorem cedeAt_sum {s : List ℕ} (i ov : ℕ) (hs : ∀ x ∈ s, 1 ≤ x) :
    (cedeAt s i ov).1.sum + (ov - (cedeAt s i ov).2) = s.sum := by
  unfold cedeAt
  cases h : s[i]? with
  | none => simp
  | some v =>
    simp only
    have hv := hs v (mem_of_getElem?_some h)
    have hset := sum_set_add (v - min ov (v - 1)) h
    omega

theorem cedeAt_rem_le (s : List ℕ) (i ov : ℕ) : (cedeAt s i ov).2 ≤ ov := by
  unfold cedeAt
  cases h : s[i]? with
  | none => simp
  | some v => simp only; omega

theorem reducePass_length (ord : List ℕ) (s : List ℕ) (ov : ℕ) :
    (reducePass s ord ov).1.length = s.length := by
  induction ord generalizing s ov with
  | nil => rfl
  | cons i rest ih =>
    unfold reducePass
    split
    · rfl
    · rw [ih, cedeAt_length]

theorem reducePass_one_le (ord : List ℕ) (s : List ℕ) (ov : ℕ) (hs : ∀ x ∈ s, 1 ≤ x) :
    ∀ x ∈ (reducePass s ord ov).1, 1 ≤ x := by
  induction ord generalizing s ov with
  | nil => exact hs
  | cons i rest ih =>
    unfold reducePass
    split
    · exact hs
    · exact ih _ _ (cedeAt_one_le hs i ov)

theorem reducePass_sum (ord : List ℕ) (s : List ℕ) (ov : ℕ) (hs : ∀ x ∈ s, 1 ≤ x) :
    (reducePass s ord ov).1.sum + ov = s.sum + (reducePass s ord ov).2 := by
  induction ord generalizing s ov with
  | nil => rfl
  | cons i rest ih =>
    unfold reducePass
    split
    · rename_i hov
      subst hov
      simp
    · have h1 := ih (cedeAt s i ov).1 (cedeAt s i ov).2 (cedeAt_one_le hs i ov)
      have h2 := cedeAt_sum i ov hs
      have h3 := cedeAt_rem_le s i ov
      omega

theorem reducePass_spanAt_notmem (ord : List ℕ) (s : List ℕ) (ov j : ℕ) (h : j ∉ ord) :
    spanAt (reducePass s ord ov).1 j = spanAt s j := by
  induction ord generalizing s ov with
  | nil => rfl
  | cons i rest ih =>
    have hji : j ≠ i := fun hc => h (hc ▸ List.mem_cons_self i rest)
    have hjr : j ∉ rest := fun hc => h (List.mem_cons_of_mem i hc)
    unfold reducePass
    split
    · rfl
    · rw [ih _ _ hjr]
      unfold cedeAt
      cases hx : s[i]? with
      | none => rfl
      | some v => simp [spanAt, List.getElem?_set_ne (Ne.symm hji)]

theorem map_capacity_set_notmem {i : ℕ} {rest : List ℕ} (s : List ℕ) (w : ℕ) (h : i ∉ rest) :
    rest.map (fun j => spanAt (s.set i w) j - 1) = rest.map (fun j => spanAt s j - 1) := by
  apply List.map_congr_left
  intro j hj
  have hij : i ≠ j := fun hc => h (hc ▸ hj)
  simp [spanAt, List.getElem?_set_ne hij]

theorem reducePass_rem_eq_zero (ord : List ℕ) (s : List ℕ) (ov : ℕ) (hnd : ord.Nodup)
    (hcap : ov ≤ (ord.map (fun i => spanAt s i - 1)).sum) :
    (reducePass s ord ov).2 = 0 := by
  induction ord generalizing s ov with
  | nil =>
    simp only [List.map_nil, List.sum_nil, Nat.le_zero] at hcap
    simpa [reducePass] using hcap
  | cons i rest ih =>
    have hnr : rest.Nodup := hnd.of_cons
    have hir : i ∉ rest := (List.nodup_cons.mp hnd).1
    simp only [List.map_cons, List.sum_cons] at hcap
    unfold reducePass
    split
    · rfl
    · unfold cedeAt
      cases hx : s[i]? with
      | none =>
        simp only
        apply ih _ _ hnr
        have hsi : spanAt s i = 1 := by simp [spanAt, hx]
        rw [hsi] at hcap
        omega
      | some v =>
        simp only
        apply ih _ _ hnr
        rw [map_capacity_set_notmem s _ hir]
        have hsi : spanAt s i = v := by simp [spanAt, hx]
        rw [hsi] at hcap
        omega

theorem reducePass_all_one (ord : List ℕ) (s : List ℕ) (ov : ℕ) (hnd : ord.Nodup)
    (hs : ∀ x ∈ s, 1 ≤ x)
    (hcap : (ord.map (fun i => spanAt s i - 1)).sum ≤ ov) :
    ∀ j ∈ ord, spanAt (reducePass s ord ov).1 j = 1 := by
  induction ord generalizing s ov with
  | nil => intro j hj; simp at hj
  | cons i rest ih =>
    have hnr : rest.Nodup := hnd.of_cons
    have hir : i ∉ rest := (List.nodup_cons.mp hnd).1
    intro j hj
    unfold reducePass
    split
    · rename_i hov
      subst hov
      have hterm : spanAt s j - 1 ≤ (List.map (fun i => spanAt s i - 1) (i :: rest)).sum := by
        apply List.single_le_sum (fun x _ => Nat.zero_le x)
        exact List.mem_map_of_mem _ hj
      have h1 := spanAt_one_le hs j
      show spanAt s j = 1
      omega
    · rename_i hov
      simp only [List.map_cons, List.sum_cons] at hcap
      unfold cedeAt
      cases hx : s[i]? with
      | none =>
        simp only
        have hsi : spanAt s i = 1 := by simp [spanAt, hx]
        rw [hsi] at hcap
        rcases List.mem_cons.mp hj with hji | hjr
        · subst hji
          rw [reducePass_spanAt_notmem _ _ _ _ hir]
          exact hsi
        · exact ih _ _ hnr hs (by omega) j hjr
      | some v =>
        simp only
        have hv := hs v (mem_of_getElem?_some hx)
        have hilen := lt_length_of_getElem?_some hx
        have hsi : spanAt s i = v := by simp [spanAt, hx]
        rw [hsi] at hcap
        have hcede : min ov (v - 1) = v - 1 := by omega
        rw [hcede]
        have hone : v - (v - 1) = 1 := by omega
        rw [hone]
        have hs2 : ∀ x ∈ s.set i 1, 1 ≤ x := by
          intro x hx2
          rcases List.mem_or_eq_of_mem_set hx2 with hmem | hval
          · exact hs x hmem
          · omega
        rcases List.mem_cons.mp hj with hji | hjr
        · subst hji
          rw [reducePass_spanAt_notmem _ _ _ _ hir]
          simp [spanAt, List.getElem?_set_self hilen]
        · refine ih _ _ hnr hs2 ?_ j hjr
          rw [map_capacity_set_notmem s _ hir]
          omega

theorem passOrder_nodup (n : ℕ) (p? : Option ℕ) : (passOrder n p?).Nodup := by
  cases p? with
  | none => exact List.nodup_range n
  | some p =>
    simp only [passOrder]
    split
    · apply List.Nodup.append ((List.nodup_range n).filter _) (List.nodup_singleton p)
      intro a ha hb
      have h1 := (List.mem_filter.mp ha).2
      have h2 := List.mem_singleton.mp hb
      subst h2
      simp at h1
    · exact List.nodup_range n

theorem passOrder_perm_range (n : ℕ) (p? : Option ℕ) : (passOrder n p?).Perm (List.range n) := by
  cases p? with
  | none => exact List.Perm.refl _
  | some p =>
    simp only [passOrder]
    split
    · rename_i hp
      have h1 := List.perm_append_singleton p ((List.range n).filter (fun i => i != p))
      have h2 : (List.range n).erase p = (List.range n).filter (fun i => i != p) :=
        (List.nodup_range n).erase_eq_filter p
      have h3 : (List.range n).Perm (p :: (List.range n).erase p) :=
        List.perm_cons_erase (List.mem_range.mpr hp)
      rw [h2] at h3
      exact h1.trans h3.symm
    · exact List.Perm.refl _

theorem capacity_range (s : List ℕ) :
    ((List.range s.length).map (fun i => spanAt s i - 1)).sum = (s.map (fun x => x - 1)).sum := by
  induction s with
  | nil => simp
  | cons a t ih =>
    rw [List.length_cons, List.range_succ_eq_map]
    simp only [List.map_cons, List.sum_cons, List.map_map]
    have hcomp : ((fun i => spanAt (a :: t) i - 1) ∘ Nat.succ) = fun i => spanAt t i - 1 := by
      funext i
      simp [spanAt, Function.comp]
    rw [hcomp, ih]
    simp [spanAt]

theorem capacity_sum {s : List ℕ} (hs : ∀ x ∈ s, 1 ≤ x) :
    (s.map (fun x => x - 1)).sum + s.length = s.sum := by
  induction s with
  | nil => rfl
  | cons a t ih =>
    have ha := hs a (List.mem_cons_self a t)
    have ht := ih (fun x hx => hs x (List.mem_cons_of_mem a hx))
    simp only [List.map_cons, List.sum_cons, List.length_cons]
    omega

theorem capacity_passOrder (s : List ℕ) (p? : Option ℕ) :
    ((passOrder s.length p?).map (fun i => spanAt s i - 1)).sum = (s.map (fun x => x - 1)).sum := by
  rw [((passOrder_perm_range s.length p?).map (fun i => spanAt s i - 1)).sum_eq, capacity_range]

theorem addAt_length (s : List ℕ) (i d : ℕ) : (addAt s i d).length = s.length := by
  unfold addAt
  cases h : s[i]? <;> simp

theorem addAt_one_le {s : List ℕ} (hs : ∀ x ∈ s, 1 ≤ x) (i d : ℕ) :
    ∀ x ∈ addAt s i d, 1 ≤ x := by
  unfold addAt
  cases h : s[i]? with
  | none => exact hs
  | some v =>
    intro x hx
    simp only at hx
    rcases List.mem_or_eq_of_mem_set hx with hmem | hval
    · exact hs x hmem
    · have hv := hs v (mem_of_getElem?_some h)
      omega

theorem addAt_sum {s : List ℕ} {i : ℕ} (d : ℕ) (h : i < s.length) :
    (addAt s i d).sum = s.sum + d := by
  have hx : s[i]? = some s[i] := List.getElem?_eq_getElem h
  have hset := sum_set_add (s[i] + d) hx
  unfold addAt
  rw [hx]
  show (s.set i (s[i] + d)).sum = s.sum + d
  omega

theorem force_length (s : List ℕ) (ov : ℕ) : (forceReduceLast s ov).length = s.length := by
  unfold forceReduceLast
  cases h : s[s.length - 1]? <;> simp

theorem force_one_le {s : List ℕ} (hs : ∀ x ∈ s, 1 ≤ x) (ov : ℕ) :
    ∀ x ∈ forceReduceLast s ov, 1 ≤ x := by
  unfold forceReduceLast
  cases h : s[s.length - 1]? with
  | none => exact hs
  | some v =>
    intro x hx
    simp only at hx
    rcases List.mem_or_eq_of_mem_set hx with hmem | hval
    · exact hs x hmem
    · omega

theorem force_all_one {s : List ℕ} (hs : ∀ x ∈ s, x = 1) (ov : ℕ) :
    ∀ x ∈ forceReduceLast s ov, x = 1 := by
  unfold forceReduceLast
  cases h : s[s.length - 1]? with
  | none => exact hs
  | some v =>
    intro x hx
    simp only at hx
    rcases List.mem_or_eq_of_mem_set hx with hmem | hval
    · exact hs x hmem
    · have hv := hs v (mem_of_getElem?_some h)
      omega

theorem preserveTarget_lt (n : ℕ) (p? : Option ℕ) (hn : 0 < n) : preserveTarget n p? < n := by
  cases p? with
  | none =>
    simp only [preserveTarget]
    omega
  | some p =>
    simp only [preserveTarget]
    split <;> omega

theorem map_max_one_le (s : List ℕ) : ∀ x ∈ s.map (fun x => max 1 x), 1 ≤ x := by
  intro x hx
  rcases List.mem_map.mp hx with ⟨y, _, rfl⟩
  exact le_max_left 1 y

theorem clampSpanList_length (s : List ℕ) (rows : ℕ) (p? : Option ℕ) :
    (clampSpanList s rows p?).length = s.length := by
  simp only [clampSpanList]
  split
  · rfl
  · split
    · exact List.length_map s _
    · split
      · rw [addAt_length]
        exact List.length_map s _
      · split
        · split
          · rw [addAt_length, reducePass_length, List.length_map]
          · rw [reducePass_length, List.length_map]
        · split
          · rw [addAt_length, force_length, reducePass_length, List.length_map]
          · rw [force_length, reducePass_length, List.length_map]

theorem clampSpanList_one_le (s : List ℕ) (rows : ℕ) (p? : Option ℕ) :
    ∀ x ∈ clampSpanList s rows p?, 1 ≤ x := by
  have hb := map_max_one_le s
  simp only [clampSpanList]
  split
  · rename_i he
    rw [List.isEmpty_iff] at he
    subst he
    intro x hx
    simp at hx
  · split
    · exact hb
    · split
      · exact addAt_one_le hb _ _
      · have hr := reducePass_one_le (passOrder (s.map (fun x => max 1 x)).length p?)
          (s.map (fun x => max 1 x)) ((s.map (fun x => max 1 x)).sum - rows) hb
        split
        · split
          · exact addAt_one_le hr _ _
          · exact hr
        · split
          · apply addAt_one_le (force_one_le hr _)
          · apply force_one_le hr

theorem passOrder_mem (n : ℕ) (p? : Option ℕ) (j : ℕ) : j ∈ passOrder n p? ↔ j < n := by
  rw [(passOrder_perm_range n p?).mem_iff, List.mem_range]

theorem clampSpanList_sum (s : List ℕ) (rows : ℕ) (p? : Option ℕ) (hne : s ≠ [])
    (hlen : s.length ≤ rows) : (clampSpanList s rows p?).sum = rows := by
  have hb := map_max_one_le s
  have hblen : (s.map (fun x => max 1 x)).length = s.length := List.length_map s _
  have hbne : 0 < (s.map (fun x => max 1 x)).length := by
    rw [hblen]
    exact List.length_pos.mpr hne
  have hemp : ¬ (s.isEmpty = true) := by simp [List.isEmpty_iff, hne]
  simp only [clampSpanList]
  rw [if_neg hemp]
  split
  · rename_i h1
    exact h1
  · rename_i h1
    split
    · rename_i h2
      rw [addAt_sum _ (preserveTarget_lt _ _ hbne)]
      omega
    · rename_i h2
      have hcap : (s.map (fun x => max 1 x)).sum - rows ≤
          ((passOrder (s.map (fun x => max 1 x)).length p?).map
            (fun i => spanAt (s.map (fun x => max 1 x)) i - 1)).sum := by
        rw [capacity_passOrder]
        have hc := capacity_sum hb
        omega
      have hrem := reducePass_rem_eq_zero (passOrder (s.map (fun x => max 1 x)).length p?)
        (s.map (fun x => max 1 x)) ((s.map (fun x => max 1 x)).sum - rows)
        (passOrder_nodup _ _) hcap
      have hsum := reducePass_sum (passOrder (s.map (fun x => max 1 x)).length p?)
        (s.map (fun x => max 1 x)) ((s.map (fun x => max 1 x)).sum - rows) hb
      rw [hrem] at hsum
      rw [if_pos hrem]
      have hs2 : (reducePass (s.map (fun x => max 1 x))
          (passOrder (s.map (fun x => max 1 x)).length p?)
          ((s.map (fun x => max 1 x)).sum - rows)).1.sum = rows := by omega
      rw [if_neg (by omega)]
      exact hs2

theorem clampSpanList_all_one (s : List ℕ) (rows : ℕ) (p? : Option ℕ)
    (hlt : rows < s.length) : ∀ x ∈ clampSpanList s rows p?, x = 1 := by
  have hb := map_max_one_le s
  have hblen : (s.map (fun x => max 1 x)).length = s.length := List.length_map s _
  have hne : s ≠ [] := by
    intro hc
    subst hc
    simp at hlt
  have hemp : ¬ (s.isEmpty = true) := by simp [List.isEmpty_iff, hne]
  have hcs := capacity_sum hb
  simp only [clampSpanList]
  rw [if_neg hemp]
  have hneq : ¬ ((s.map (fun x => max 1 x)).sum = rows) := by omega
  have hnlt : ¬ ((s.map (fun x => max 1 x)).sum < rows) := by omega
  rw [if_neg hneq, if_neg hnlt]
  have hcap2 : ((passOrder (s.map (fun x => max 1 x)).length p?).map
      (fun i => spanAt (s.map (fun x => max 1 x)) i - 1)).sum ≤
      (s.map (fun x => max 1 x)).sum - rows := by
    rw [capacity_passOrder]
    omega
  have hall := reducePass_all_one (passOrder (s.map (fun x => max 1 x)).length p?)
    (s.map (fun x => max 1 x)) ((s.map (fun x => max 1 x)).sum - rows)
    (passOrder_nodup _ _) hb hcap2
  have hones : ∀ x ∈ (reducePass (s.map (fun x => max 1 x))
      (passOrder (s.map (fun x => max 1 x)).length p?)
      ((s.map (fun x => max 1 x)).sum - rows)).1, x = 1 := by
    intro x hx
    rcases List.mem_iff_getElem?.mp hx with ⟨j, hj⟩
    have hjlen := lt_length_of_getElem?_some hj
    rw [reducePass_length] at hjlen
    have hj2 := hall j ((passOrder_mem _ _ _).mpr hjlen)
    simp only [spanAt, hj, Option.getD_some] at hj2
    exact hj2
  have hsum1 : (reducePass (s.map (fun x => max 1 x))
      (passOrder (s.map (fun x => max 1 x)).length p?)
      ((s.map (fun x => max 1 x)).sum - rows)).1.sum = s.length := by
    rw [sum_eq_length_of_all_one hones, reducePass_length, hblen]
  split
  · split
    · rename_i hcond
      rw [hsum1] at hcond
      omega
    · exact hones
  · have hfones := force_all_one hones (reducePass (s.map (fun x => max 1 x))
        (passOrder (s.map (fun x => max 1 x)).length p?)
        ((s.map (fun x => max 1 x)).sum - rows)).2
    have hsum2 : (forceReduceLast (reducePass (s.map (fun x => max 1 x))
        (passOrder (s.map (fun x => max 1 x)).length p?)
        ((s.map (fun x => max 1 x)).sum - rows)).1 (reducePass (s.map (fun x => max 1 x))
        (passOrder (s.map (fun x => max 1 x)).length p?)
        ((s.map (fun x => max 1 x)).sum - rows)).2).sum = s.length := by
      rw [sum_eq_length_of_all_one hfones, force_length, reducePass_length, hblen]
    split
    · rename_i hcond
      rw [hsum2] at hcond
      omega
    · exact hfones

/-! ### Cell-level clamping lemmas -/

theorem clampSpansToRows_length (cells : List Cell) (rows : ℕ) (p? : Option ℕ) :
    (clampSpansToRows cells rows p?).length = cells.length := by
  simp [clampSpansToRows, clampSpanList_length]

theorem sumSpans_clampSpansToRows (cells : List Cell) (rows : ℕ) (p? : Option ℕ) :
    sumSpans (clampSpansToRows cells rows p?)
      = (clampSpanList (cells.map Cell.span) rows p?).sum := by
  unfold sumSpans clampSpansToRows
  rw [List.map_map]
  have hid : (Cell.span ∘ Cell.mk) = id := rfl
  rw [hid, List.map_id]

theorem clampSpansToRows_one_le (cells : List Cell) (rows : ℕ) (p? : Option ℕ) :
    ∀ c ∈ clampSpansToRows cells rows p?, 1 ≤ c.span := by
  intro c hc
  rcases List.mem_map.mp hc with ⟨x, hx, rfl⟩
  exact clampSpanList_one_le _ _ _ x hx

theorem clampSpansToRows_sum (cells : List Cell) (rows : ℕ) (p? : Option ℕ)
    (hne : cells ≠ []) (hlen : cells.length ≤ rows) :
    sumSpans (clampSpansToRows cells rows p?) = rows := by
  rw [sumSpans_clampSpansToRows]
  apply clampSpanList_sum
  · simp [hne]
  · simpa using hlen

theorem clampSpansToRows_all_one (cells : List Cell) (rows : ℕ) (p? : Option ℕ)
    (hlt : rows < cells.length) : ∀ c ∈ clampSpansToRows cells rows p?, c.span = 1 := by
  intro c hc
  rcases List.mem_map.mp hc with ⟨x, hx, rfl⟩
  exact clampSpanList_all_one _ _ _ (by simpa using hlt) x hx

theorem sumSpans_clampSpansToRows_overfull (cells : List Cell) (rows : ℕ) (p? : Option ℕ)
    (hlt : rows < cells.length) :
    sumSpans (clampSpansToRows cells rows p?) = cells.length := by
  rw [sumSpans_clampSpansToRows,
    sum_eq_length_of_all_one (clampSpanList_all_one _ _ _ (by simpa using hlt)),
    clampSpanList_length, List.length_map]

/-! ### normalizeFracs lemmas -/

theorem sumFracs_map_div (cols : List Column) (t : ℚ) :
    sumFracs (cols.map (fun c => { c with frac := c.frac / t })) = sumFracs cols / t := by
  unfold sumFracs
  rw [List.map_map]
  simp only [div_eq_mul_inv]
  have hcomp : (Column.frac ∘ fun c : Column => { c with frac := c.frac * t⁻¹ })
      = fun c : Column => c.frac * t⁻¹ := rfl
  rw [hcomp]
  exact List.sum_map_mul_right cols Column.frac t⁻¹

theorem sumFracs_normalize (cols : List Column) (h : sumFracs cols ≠ 0) :
    sumFracs (normalizeFracs cols) = 1 := by
  simp only [normalizeFracs]
  rw [if_neg h, sumFracs_map_div, div_self h]

theorem normalizeFracs_mem {cols : List Column} {c' : Column} (h : c' ∈ normalizeFracs cols) :
    ∃ c ∈ cols, c'.cells = c.cells ∧ (c'.frac = c.frac ∨ c'.frac = c.frac / sumFracs cols) := by
  simp only [normalizeFracs] at h
  split at h
  · exact ⟨c', h, rfl, Or.inl rfl⟩
  · rcases List.mem_map.mp h with ⟨c, hc, rfl⟩
    exact ⟨c, hc, rfl, Or.inr rfl⟩

theorem sumFracs_pos {cols : List Column} (hne : cols ≠ []) (hpos : ∀ c ∈ cols, 0 < c.frac) :
    0 < sumFracs cols := by
  unfold sumFracs
  apply List.sum_pos
  · intro x hx
    rcases List.mem_map.mp hx with ⟨c, hc, rfl⟩
    exact hpos c hc
  · simp [hne]

theorem normalizeFracs_pos {cols : List Column} (hpos : ∀ c ∈ cols, 0 < c.frac) :
    ∀ c ∈ normalizeFracs cols, 0 < c.frac := by
  intro c hc
  rcases normalizeFracs_mem hc with ⟨c0, hc0, _, hf | hf⟩
  · rw [hf]
    exact hpos c0 hc0
  · rw [hf]
    apply div_pos (hpos c0 hc0)
    apply sumFracs_pos _ hpos
    intro hcol
    rw [hcol] at hc0
    simp at hc0

theorem normalizeFracs_length (cols : List Column) :
    (normalizeFracs cols).length = cols.length := by
  simp only [normalizeFracs]
  split <;> simp

theorem normalizeFracs_eq_self (cols : List Column) (h : sumFracs cols = 1) :
    normalizeFracs cols = cols := by
  simp only [normalizeFracs, h]
  rw [if_neg one_ne_zero]
  have hcong : ∀ c ∈ cols, { c with frac := c.frac / 1 } = c := by
    intro c _
    cases c
    simp
  rw [List.map_congr_left hcong]
  simp

/-! ### spliceOut / absorb / insert lemmas -/

theorem spliceOut_eq_some {l : List α} {i : ℕ} {a : α} {rest : List α}
    (h : spliceOut l i = some (a, rest)) : l[i]? = some a ∧ rest = l.eraseIdx i := by
  unfold spliceOut at h
  cases hx : l[i]? with
  | none =>
    rw [hx] at h
    exact absurd h (by simp)
  | some b =>
    rw [hx] at h
    simp only [Option.some.injEq, Prod.mk.injEq] at h
    exact ⟨by rw [h.1], h.2.symm⟩

theorem absorb_length (cells : List Cell) (ri sp : ℕ) :
    (absorbSpanAfterRemoval cells ri sp).length = cells.length := by
  simp only [absorbSpanAfterRemoval]
  cases h : cells[if ri = 0 then 0 else ri - 1]? <;> simp

theorem absorb_ne_nil {cells : List Cell} (ri sp : ℕ) (hne : cells ≠ []) :
    absorbSpanAfterRemoval cells ri sp ≠ [] := by
  intro hc
  have := absorb_length cells ri sp
  rw [hc] at this
  exact hne (List.eq_nil_of_length_eq_zero this.symm)

theorem absorb_one_le {cells : List Cell} (hs : ∀ c ∈ cells, 1 ≤ c.span) (ri sp : ℕ) :
    ∀ c ∈ absorbSpanAfterRemoval cells ri sp, 1 ≤ c.span := by
  simp only [absorbSpanAfterRemoval]
  cases h : cells[if ri = 0 then 0 else ri - 1]? with
  | none => exact hs
  | some c0 =>
    intro c hc
    simp only at hc
    rcases List.mem_or_eq_of_mem_set hc with hmem | hval
    · exact hs c hmem
    · have := hs c0 (mem_of_getElem?_some h)
      subst hval
      simp only
      omega

theorem absorb_sum (cells : List Cell) (ri sp : ℕ) (hne : cells ≠ []) (hri : ri ≤ cells.length) :
    sumSpans (absorbSpanAfterRemoval cells ri sp) = sumSpans cells + sp := by
  have hlen : 0 < cells.length := List.length_pos.mpr hne
  have hj : (if ri = 0 then 0 else ri - 1) < cells.length := by split <;> omega
  have hx : cells[if ri = 0 then 0 else ri - 1]? = some cells[if ri = 0 then 0 else ri - 1] :=
    List.getElem?_eq_getElem hj
  have hx2 : (cells.map Cell.span)[if ri = 0 then 0 else ri - 1]?
      = some (cells[if ri = 0 then 0 else ri - 1]).span := by
    rw [List.getElem?_map, hx]
    rfl
  have hset := sum_set_add ((cells[if ri = 0 then 0 else ri - 1]).span + sp) hx2
  simp only [absorbSpanAfterRemoval]
  rw [hx]
  unfold sumSpans
  rw [List.map_set]
  dsimp only
  unfold sumSpans at hset
  omega

theorem iclamp_toNat_le (v : Int) (n : ℕ) : (iclamp v 0 (n : Int)).toNat ≤ n := by
  unfold iclamp
  omega

theorem insertCellWithClamp_length (cells : List Cell) (idx : Int) (c : Cell) (rows : ℕ) :
    (insertCellWithClamp cells idx c rows).length = cells.length + 1 := by
  simp only [insertCellWithClamp]
  rw [clampSpansToRows_length, List.length_insertIdx _ _ (iclamp_toNat_le _ _)]

theorem insertCellWithClamp_ne_nil (cells : List Cell) (idx : Int) (c : Cell) (rows : ℕ) :
    insertCellWithClamp cells idx c rows ≠ [] := by
  intro hc
  have := insertCellWithClamp_length cells idx c rows
  rw [hc] at this
  simp at this

theorem insertCellWithClamp_one_le (cells : List Cell) (idx : Int) (c : Cell) (rows : ℕ) :
    ∀ x ∈ insertCellWithClamp cells idx c rows, 1 ≤ x.span := by
  simp only [insertCellWithClamp]
  exact clampSpansToRows_one_le _ _ _

theorem insertCellWithClamp_sum (cells : List Cell) (idx : Int) (c : Cell) (rows : ℕ)
    (hfit : cells.length + 1 ≤ rows) :
    sumSpans (insertCellWithClamp cells idx c rows) = rows := by
  simp only [insertCellWithClamp]
  apply clampSpansToRows_sum
  · intro hc
    have hlen := congrArg List.length hc
    rw [List.length_insertIdx _ _ (iclamp_toNat_le _ _)] at hlen
    simp at hlen
  · rw [List.length_insertIdx _ _ (iclamp_toNat_le _ _)]
    exact hfit

/-! ### Column-list sum helpers -/

theorem sumFracs_map_mul (cols : List Column) (k : ℚ) :
    sumFracs (cols.map (fun c => { c with frac := c.frac * k })) = sumFracs cols * k := by
  unfold sumFracs
  rw [List.map_map]
  have hcomp : (Column.frac ∘ fun c : Column => { c with frac := c.frac * k })
      = fun c : Column => c.frac * k := rfl
  rw [hcomp]
  exact List.sum_map_mul_right cols Column.frac k

theorem sumFracs_append (l1 l2 : List Column) :
    sumFracs (l1 ++ l2) = sumFracs l1 + sumFracs l2 := by
  unfold sumFracs
  rw [List.map_append, List.sum_append]

theorem sumFracs_set {cols : List Column} {i : ℕ} {c : Column} (v : Column)
    (h : cols[i]? = some c) : sumFracs (cols.set i v) + c.frac = sumFracs cols + v.frac := by
  unfold sumFracs
  rw [List.map_set]
  have hx : (cols.map Column.frac)[i]? = some c.frac := by
    rw [List.getElem?_map, h]
    rfl
  exact sum_set_add v.frac hx

theorem map_eraseIdx_comm (f : α → β) (l : List α) (i : ℕ) :
    (l.eraseIdx i).map f = (l.map f).eraseIdx i := by
  induction l generalizing i with
  | nil => rfl
  | cons a t ih =>
    cases i with
    | zero => rfl
    | succ k =>
      simp only [List.eraseIdx_cons_succ, List.map_cons]
      rw [ih]

theorem sumSpans_eraseIdx {cells : List Cell} {j : ℕ} {c : Cell} (h : cells[j]? = some c) :
    sumSpans (cells.eraseIdx j) + c.span = sumSpans cells := by
  unfold sumSpans
  rw [map_eraseIdx_comm]
  have hx : (cells.map Cell.span)[j]? = some c.span := by
    rw [List.getElem?_map, h]
    rfl
  exact sum_eraseIdx_add hx

theorem sumSpans_insertIdx (cells : List Cell) {k : ℕ} (c : Cell) (hk : k ≤ cells.length) :
    sumSpans (cells.insertIdx k c) = sumSpans cells + c.span := by
  unfold sumSpans
  rw [((List.perm_insertIdx c cells hk).map Cell.span).sum_eq, List.map_cons, List.sum_cons,
    add_comm]

theorem sumFracs_eraseIdx {cols : List Column} {i : ℕ} {c : Column} (h : cols[i]? = some c) :
    sumFracs (cols.eraseIdx i) + c.frac = sumFracs cols := by
  unfold sumFracs
  rw [map_eraseIdx_comm]
  have hx : (cols.map Column.frac)[i]? = some c.frac := by
    rw [List.getElem?_map, h]
    rfl
  exact sum_eraseIdx_add hx

theorem normalizeFracs_cells_prop {cols : List Column} (P : List Cell → Prop)
    (h : ∀ c ∈ cols, P c.cells) : ∀ c ∈ normalizeFracs cols, P c.cells := by
  intro c hc
  rcases normalizeFracs_mem hc with ⟨c0, hc0, hcells, _⟩
  rw [hcells]
  exact h c0 hc0

theorem listGetInt?_eq_some {l : List α} {i : Int} {a : α} (h : listGetInt? l i = some a) :
    0 ≤ i ∧ l[i.toNat]? = some a := by
  unfold listGetInt? at h
  split at h
  · exact absurd h (by simp)
  · exact ⟨by omega, h⟩

/-! ### Validity preservation by each command -/

theorem rowFracs_ne_nil {b : BoardState} (h2 : b.rowFracs.sum = 1) : 0 < b.rowFracs.length := by
  cases hr : b.rowFracs with
  | nil =>
    rw [hr] at h2
    simp at h2
  | cons a t => simp

theorem valid_handleAddColumn {b : BoardState} (hv : ValidBoard b) :
    ValidBoard (handleAddColumn b) := by
  obtain ⟨h1, h2, h3, h4, h5, h6⟩ := hv
  have hrows : 0 < b.rowFracs.length := rowFracs_ne_nil h2
  by_cases hz : b.columns.length = 0
  · simp only [handleAddColumn, if_pos hz]
    refine ⟨fun _ => ?_, h2, ?_, ?_, ?_, ?_⟩
    · simp [sumFracs]
    · intro c hc
      rw [List.mem_singleton] at hc
      subst hc
      simp [sumSpans]
    · intro c hc
      rw [List.mem_singleton] at hc
      subst hc
      intro cell hcell
      rw [List.mem_singleton] at hcell
      subst hcell
      exact hrows
    · intro c hc
      rw [List.mem_singleton] at hc
      subst hc
      simp
    · intro c hc
      rw [List.mem_singleton] at hc
      subst hc
      norm_num
  · have hcne : b.columns ≠ [] := fun hc => hz (by rw [hc]; rfl)
    have hsum1 := h1 hcne
    have hn1 : 1 ≤ b.columns.length := Nat.pos_of_ne_zero hz
    have hnpos : (0:ℚ) < (b.columns.length : ℚ) + 1 := by positivity
    have hfpos : (0:ℚ) < 1 / ((b.columns.length : ℚ) + 1) := by positivity
    have hshrink : (0:ℚ) < 1 - 1 / ((b.columns.length : ℚ) + 1) := by
      rw [sub_pos, div_lt_one hnpos]
      have : (1:ℚ) ≤ (b.columns.length : ℚ) := by exact_mod_cast hn1
      linarith
    simp only [handleAddColumn, if_neg hz]
    have hLsum : sumFracs
        ((b.columns.map (fun c =>
          { c with frac := c.frac * (1 - 1 / ((b.columns.length : ℚ) + 1)) })) ++
          [{ frac := 1 / ((b.columns.length : ℚ) + 1),
             cells := [{ span := b.rowFracs.length }] }]) = 1 := by
      rw [sumFracs_append, sumFracs_map_mul, hsum1]
      simp [sumFracs]
    have hLmem : ∀ c ∈ (b.columns.map (fun c =>
        { c with frac := c.frac * (1 - 1 / ((b.columns.length : ℚ) + 1)) })) ++
          [{ frac := 1 / ((b.columns.length : ℚ) + 1),
             cells := [{ span := b.rowFracs.length }] }],
        (sumSpans c.cells = b.rowFracs.length ∧ (∀ x ∈ c.cells, 1 ≤ x.span) ∧
          c.cells ≠ [] ∧ 0 < c.frac) := by
      intro c hc
      rcases List.mem_append.mp hc with hl | hr
      · rcases List.mem_map.mp hl with ⟨c0, hc0, rfl⟩
        exact ⟨h3 c0 hc0, h4 c0 hc0, h5 c0 hc0, mul_pos (h6 c0 hc0) hshrink⟩
      · rw [List.mem_singleton] at hr
        subst hr
        refine ⟨by simp [sumSpans], ?_, by simp, hfpos⟩
        intro x hx
        rw [List.mem_singleton] at hx
        subst hx
        exact hrows
    refine ⟨fun _ => ?_, h2, ?_, ?_, ?_, ?_⟩
    · exact sumFracs_normalize _ (by rw [hLsum]; exact one_ne_zero)
    · exact normalizeFracs_cells_prop (fun cs => sumSpans cs = b.rowFracs.length)
        (fun c hc => (hLmem c hc).1)
    · exact normalizeFracs_cells_prop (fun cs => ∀ x ∈ cs, 1 ≤ x.span)
        (fun c hc => (hLmem c hc).2.1)
    · exact normalizeFracs_cells_prop (fun cs => cs ≠ [])
        (fun c hc => (hLmem c hc).2.2.1)
    · exact normalizeFracs_pos (fun c hc => (hLmem c hc).2.2.2)

theorem valid_handleAddCellSpec {b : BoardState} (i : ℕ) (hv : ValidBoard b)
    (hs : safeCommand b (.addCell i) = true) : ValidBoard (handleAddCellSpec b i) := by
  obtain ⟨h1, h2, h3, h4, h5, h6⟩ := hv
  simp only [handleAddCellSpec]
  cases hx : b.columns[i]? with
  | none => exact ⟨h1, h2, h3, h4, h5, h6⟩
  | some col =>
    dsimp only
    have hfit : col.cells.length + 1 ≤ b.rowFracs.length := by
      simp only [safeCommand, hx] at hs
      exact of_decide_eq_true hs
    have hmem := mem_of_getElem?_some hx
    refine ⟨fun _ => ?_, h2, ?_, ?_, ?_, ?_⟩
    · have hset := sumFracs_set
        { col with cells := insertCellWithClamp col.cells (col.cells.length : Int) ⟨1⟩ b.rowFracs.length } hx
      have hbne : b.columns ≠ [] := by
        intro hc
        rw [hc] at hx
        simp at hx
      have := h1 hbne
      simp only at hset ⊢
      linarith
    · intro c hc
      rcases List.mem_or_eq_of_mem_set hc with hmem2 | hval
      · exact h3 c hmem2
      · subst hval
        exact insertCellWithClamp_sum _ _ _ _ hfit
    · intro c hc
      rcases List.mem_or_eq_of_mem_set hc with hmem2 | hval
      · exact h4 c hmem2
      · subst hval
        exact insertCellWithClamp_one_le _ _ _ _
    · intro c hc
      rcases List.mem_or_eq_of_mem_set hc with hmem2 | hval
      · exact h5 c hmem2
      · subst hval
        exact insertCellWithClamp_ne_nil _ _ _ _
    · intro c hc
      rcases List.mem_or_eq_of_mem_set hc with hmem2 | hval
      · exact h6 c hmem2
      · subst hval
        exact h6 col hmem

theorem valid_erase_normalize {b : BoardState} (hv : ValidBoard b) (i : ℕ) :
    ValidBoard { b with columns := normalizeFracs (b.columns.eraseIdx i) } := by
  obtain ⟨h1, h2, h3, h4, h5, h6⟩ := hv
  have hsub : ∀ c ∈ b.columns.eraseIdx i, c ∈ b.columns :=
    fun c hc => List.mem_of_mem_eraseIdx hc
  refine ⟨fun hne => ?_, h2, ?_, ?_, ?_, ?_⟩
  · apply sumFracs_normalize
    have herasene : b.columns.eraseIdx i ≠ [] := by
      intro hc
      apply hne
      show normalizeFracs (b.columns.eraseIdx i) = []
      rw [hc]
      simp [normalizeFracs, sumFracs]
    exact ne_of_gt (sumFracs_pos herasene (fun c hc => h6 c (hsub c hc)))
  · exact normalizeFracs_cells_prop (fun cs => sumSpans cs = b.rowFracs.length)
      (fun c hc => h3 c (hsub c hc))
  · exact normalizeFracs_cells_prop (fun cs => ∀ x ∈ cs, 1 ≤ x.span)
      (fun c hc => h4 c (hsub c hc))
  · exact normalizeFracs_cells_prop (fun cs => cs ≠ [])
      (fun c hc => h5 c (hsub c hc))
  · exact normalizeFracs_pos (fun c hc => h6 c (hsub c hc))

theorem valid_handleDeleteColumnSpec {b : BoardState} (i : ℕ) (hv : ValidBoard b) :
    ValidBoard (handleDeleteColumnSpec b i) := by
  unfold handleDeleteColumnSpec
  split
  · exact valid_erase_normalize hv i
  · exact hv

theorem valid_handleDeleteCell {b : BoardState} (i j : ℕ) (hv : ValidBoard b) :
    ValidBoard (handleDeleteCell b i j) := by
  obtain ⟨h1, h2, h3, h4, h5, h6⟩ := hv
  simp only [handleDeleteCell]
  cases hx : b.columns[i]? with
  | none => exact ⟨h1, h2, h3, h4, h5, h6⟩
  | some col =>
    dsimp only
    cases hsp : spliceOut col.cells j with
    | none => exact ⟨h1, h2, h3, h4, h5, h6⟩
    | some pr =>
      obtain ⟨removed, cells⟩ := pr
      dsimp only
      obtain ⟨hget, hrest⟩ := spliceOut_eq_some hsp
      by_cases hemp : cells.isEmpty
      · rw [if_pos hemp]
        exact valid_erase_normalize ⟨h1, h2, h3, h4, h5, h6⟩ i
      · rw [if_neg hemp]
        have hmem := mem_of_getElem?_some hx
        have hcne : cells ≠ [] := by
          intro hc
          rw [hc] at hemp
          exact hemp rfl
        have hjlt : j < col.cells.length := lt_length_of_getElem?_some hget
        have hcellslen : cells.length = col.cells.length - 1 := by
          rw [hrest, List.length_eraseIdx]
          simp [hjlt]
        have hjle : j ≤ cells.length := by omega
        have habs : sumSpans (absorbSpanAfterRemoval cells j removed.span)
            = sumSpans cells + removed.span := absorb_sum cells j removed.span hcne hjle
        have hsplit : sumSpans cells + removed.span = sumSpans col.cells := by
          rw [hrest]
          exact sumSpans_eraseIdx hget
        refine ⟨fun _ => ?_, h2, ?_, ?_, ?_, ?_⟩
        · have hset := sumFracs_set
            { col with cells := absorbSpanAfterRemoval cells j removed.span } hx
          have hbne : b.columns ≠ [] := by
            intro hc
            rw [hc] at hx
            simp at hx
          have := h1 hbne
          simp only at hset ⊢
          linarith
        · intro c hc
          rcases List.mem_or_eq_of_mem_set hc with hm | hval
          · exact h3 c hm
          · subst hval
            show sumSpans (absorbSpanAfterRemoval cells j removed.span) = b.rowFracs.length
            rw [habs, hsplit]
            exact h3 col hmem
        · intro c hc
          rcases List.mem_or_eq_of_mem_set hc with hm | hval
          · exact h4 c hm
          · subst hval
            apply absorb_one_le
            intro x hxx
            apply h4 col hmem
            rw [hrest] at hxx
            exact List.mem_of_mem_eraseIdx hxx
        · intro c hc
          rcases List.mem_or_eq_of_mem_set hc with hm | hval
          · exact h5 c hm
          · subst hval
            exact absorb_ne_nil _ _ hcne
        · intro c hc
          rcases List.mem_or_eq_of_mem_set hc with hm | hval
          · exact h6 c hm
          · subst hval
            exact h6 col hmem

theorem valid_sameColumnReorder {b : BoardState} (sc si : ℕ) (ii : Int) (hv : ValidBoard b) :
    ValidBoard (sameColumnReorder b sc si ii) := by
  obtain ⟨h1, h2, h3, h4, h5, h6⟩ := hv
  simp only [sameColumnReorder]
  cases hx : b.columns[sc]? with
  | none => exact ⟨h1, h2, h3, h4, h5, h6⟩
  | some col =>
    dsimp only
    cases hsp : spliceOut col.cells si with
    | none => exact ⟨h1, h2, h3, h4, h5, h6⟩
    | some pr =>
      obtain ⟨moved, cells⟩ := pr
      dsimp only
      obtain ⟨hget, hrest⟩ := spliceOut_eq_some hsp
      have hmem := mem_of_getElem?_some hx
      have hmoved : moved ∈ col.cells := mem_of_getElem?_some hget
      have hidx : (iclamp ii 0 (cells.length : Int)).toNat ≤ cells.length :=
        iclamp_toNat_le ii cells.length
      have hsum : sumSpans (cells.insertIdx (iclamp ii 0 (cells.length : Int)).toNat moved)
          = sumSpans col.cells := by
        rw [sumSpans_insertIdx cells moved hidx, hrest]
        exact sumSpans_eraseIdx hget
      refine ⟨fun _ => ?_, h2, ?_, ?_, ?_, ?_⟩
      · have hset := sumFracs_set
          { col with cells := cells.insertIdx (iclamp ii 0 (cells.length : Int)).toNat moved } hx
        have hbne : b.columns ≠ [] := by
          intro hc
          rw [hc] at hx
          simp at hx
        have := h1 hbne
        simp only at hset ⊢
        linarith
      · intro c hc
        rcases List.mem_or_eq_of_mem_set hc with hm | hval
        · exact h3 c hm
        · subst hval
          show sumSpans _ = b.rowFracs.length
          rw [hsum]
          exact h3 col hmem
      · intro c hc
        rcases List.mem_or_eq_of_mem_set hc with hm | hval
        · exact h4 c hm
        · subst hval
          intro x hxx
          rcases (List.mem_insertIdx hidx).mp hxx with hm2 | hm2
          · subst hm2
            exact h4 col hmem x hmoved
          · apply h4 col hmem
            rw [hrest] at hm2
            exact List.mem_of_mem_eraseIdx hm2
      · intro c hc
        rcases List.mem_or_eq_of_mem_set hc with hm | hval
        · exact h5 c hm
        · subst hval
          show cells.insertIdx (iclamp ii 0 (cells.length : Int)).toNat moved ≠ []
          intro hnil
          have := congrArg List.length hnil
          rw [List.length_insertIdx _ _ hidx] at this
          simp at this
      · intro c hc
        rcases List.mem_or_eq_of_mem_set hc with hm | hval
        · exact h6 c hm
        · subst hval
          exact h6 col hmem

theorem valid_cross_finish {b : BoardState} {W : List Column} {d2 : ℕ} {target : Column}
    (moved : Cell) (di : Int) (htg : W[d2]? = some target)
    (hA : ∀ c ∈ W, sumSpans c.cells = b.rowFracs.length)
    (hB : ∀ c ∈ W, ∀ x ∈ c.cells, 1 ≤ x.span)
    (hC : ∀ c ∈ W, c.cells ≠ [])
    (hD : ∀ c ∈ W, 0 < c.frac)
    (h2 : b.rowFracs.sum = 1)
    (hfit2 : target.cells.length + 1 ≤ b.rowFracs.length) :
    ValidBoard { b with columns := normalizeFracs (W.set d2 { target with cells := insertCellWithClamp target.cells di moved b.rowFracs.length }) } ∧
    (sumFracs W = 1 → ValidBoard { b with columns := W.set d2 { target with cells := insertCellWithClamp target.cells di moved b.rowFracs.length } }) := by
  have htmem : target ∈ W := mem_of_getElem?_some htg
  have hWne : W ≠ [] := by
    intro hc
    rw [hc] at htg
    simp at htg
  have hW2A : ∀ c ∈ W.set d2 { target with cells := insertCellWithClamp target.cells di moved b.rowFracs.length }, sumSpans c.cells = b.rowFracs.length := by
    intro c hc
    rcases List.mem_or_eq_of_mem_set hc with hm | hval
    · exact hA c hm
    · subst hval
      exact insertCellWithClamp_sum _ _ _ _ hfit2
  have hW2B : ∀ c ∈ W.set d2 { target with cells := insertCellWithClamp target.cells di moved b.rowFracs.length }, ∀ x ∈ c.cells, 1 ≤ x.span := by
    intro c hc
    rcases List.mem_or_eq_of_mem_set hc with hm | hval
    · exact hB c hm
    · subst hval
      exact insertCellWithClamp_one_le _ _ _ _
  have hW2C : ∀ c ∈ W.set d2 { target with cells := insertCellWithClamp target.cells di moved b.rowFracs.length }, c.cells ≠ [] := by
    intro c hc
    rcases List.mem_or_eq_of_mem_set hc with hm | hval
    · exact hC c hm
    · subst hval
      exact insertCellWithClamp_ne_nil _ _ _ _
  have hW2D : ∀ c ∈ W.set d2 { target with cells := insertCellWithClamp target.cells di moved b.rowFracs.length }, 0 < c.frac := by
    intro c hc
    rcases List.mem_or_eq_of_mem_set hc with hm | hval
    · exact hD c hm
    · subst hval
      exact hD target htmem
  have hW2ne : W.set d2 { target with cells := insertCellWithClamp target.cells di moved b.rowFracs.length } ≠ [] := by
    intro hc
    have := congrArg List.length hc
    rw [List.length_set] at this
    exact hWne (List.eq_nil_of_length_eq_zero this)
  have hW2sum : sumFracs (W.set d2 { target with cells := insertCellWithClamp target.cells di moved b.rowFracs.length }) = sumFracs W := by
    have hset := sumFracs_set { target with cells := insertCellWithClamp target.cells di moved b.rowFracs.length } htg
    simp only at hset
    linarith
  constructor
  · refine ⟨fun _ => ?_, h2, ?_, ?_, ?_, ?_⟩
    · exact sumFracs_normalize _ (ne_of_gt (by rw [hW2sum]; exact sumFracs_pos hWne hD))
    · exact normalizeFracs_cells_prop (fun cs => sumSpans cs = b.rowFracs.length) hW2A
    · exact normalizeFracs_cells_prop (fun cs => ∀ x ∈ cs, 1 ≤ x.span) hW2B
    · exact normalizeFracs_cells_prop (fun cs => cs ≠ []) hW2C
    · exact normalizeFracs_pos hW2D
  · intro hWsum
    refine ⟨fun _ => ?_, h2, hW2A, hW2B, hW2C, hW2D⟩
    rw [hW2sum, hWsum]

theorem valid_dragEndCore {b : BoardState} (q : QuadrantIdentifier) (sc : Int) (si : ℕ)
    (hv : ValidBoard b) (hfit : insertFits b q sc si = true) :
    ValidBoard (dragEndCore b q sc si) := by
  unfold dragEndCore
  cases hr : resolveDestination b.columns q sc si with
  | none => exact hv
  | some p =>
    obtain ⟨dc, di⟩ := p
    dsimp only
    by_cases hdc : dc = sc
    · rw [if_pos hdc]
      exact valid_sameColumnReorder _ _ _ hv
    · rw [if_neg hdc]
      unfold insertFits at hfit
      rw [hr] at hfit
      dsimp only at hfit
      rw [if_neg hdc] at hfit
      cases hp : dragCrossParts b sc si dc with
      | none => exact hv
      | some parts =>
        dsimp only
        rw [hp] at hfit
        dsimp only at hfit
        have hfit2 : parts.target.cells.length + 1 ≤ b.rowFracs.length := of_decide_eq_true hfit
        obtain ⟨h1, h2, h3, h4, h5, h6⟩ := hv
        unfold dragCrossParts at hp
        cases hsrc : listGetInt? b.columns sc with
        | none =>
          rw [hsrc] at hp
          exact absurd hp (by simp)
        | some srcCol =>
        rw [hsrc] at hp
        dsimp only at hp
        cases hsp : spliceOut srcCol.cells si with
        | none =>
          rw [hsp] at hp
          exact absurd hp (by simp)
        | some pr =>
        obtain ⟨moved, rest⟩ := pr
        rw [hsp] at hp
        dsimp only at hp
        cases htg : (dragWorking b sc.toNat srcCol si moved rest).1[dragDestIdx
            (dragWorking b sc.toNat srcCol si moved rest) sc dc]? with
        | none =>
          rw [htg] at hp
          exact absurd hp (by simp)
        | some target =>
        rw [htg] at hp
        simp only [Option.some.injEq] at hp
        subst hp
        dsimp only at hfit2 ⊢
        obtain ⟨hsc0, hx⟩ := listGetInt?_eq_some hsrc
        obtain ⟨hget, hrest⟩ := spliceOut_eq_some hsp
        have hmemsrc : srcCol ∈ b.columns := mem_of_getElem?_some hx
        have hmoved : moved ∈ srcCol.cells := mem_of_getElem?_some hget
        have hbne : b.columns ≠ [] := by
          intro hc
          rw [hc] at hx
          simp at hx
        have hsum1 := h1 hbne
        by_cases hemp : rest.isEmpty
        · simp only [dragWorking, if_pos hemp] at htg ⊢
          have hsub : ∀ c ∈ b.columns.eraseIdx sc.toNat, c ∈ b.columns :=
            fun c hc => List.mem_of_mem_eraseIdx hc
          have hfin := valid_cross_finish moved di htg
            (fun c hc => h3 c (hsub c hc)) (fun c hc => h4 c (hsub c hc))
            (fun c hc => h5 c (hsub c hc)) (fun c hc => h6 c (hsub c hc)) h2
            (by simpa only [dragWorking, if_pos hemp] using hfit2)
          rw [if_pos trivial]
          exact hfin.1
        · simp only [dragWorking, if_neg hemp] at htg ⊢
          have hrestne : rest ≠ [] := by
            intro hc
            rw [hc] at hemp
            exact hemp rfl
          have hjlt : si < srcCol.cells.length := lt_length_of_getElem?_some hget
          have hrestlen : rest.length = srcCol.cells.length - 1 := by
            rw [hrest, List.length_eraseIdx]
            simp [hjlt]
          have hsile : si ≤ rest.length := by omega
          have habs : sumSpans (absorbSpanAfterRemoval rest si moved.span)
              = sumSpans rest + moved.span := absorb_sum rest si moved.span hrestne hsile
          have hsplit : sumSpans rest + moved.span = sumSpans srcCol.cells := by
            rw [hrest]
            exact sumSpans_eraseIdx hget
          have hWA : ∀ c ∈ b.columns.set sc.toNat
              { srcCol with cells := absorbSpanAfterRemoval rest si moved.span },
              sumSpans c.cells = b.rowFracs.length := by
            intro c hc
            rcases List.mem_or_eq_of_mem_set hc with hm | hval
            · exact h3 c hm
            · subst hval
              show sumSpans (absorbSpanAfterRemoval rest si moved.span) = b.rowFracs.length
              rw [habs, hsplit]
              exact h3 srcCol hmemsrc
          have hWB : ∀ c ∈ b.columns.set sc.toNat
              { srcCol with cells := absorbSpanAfterRemoval rest si moved.span },
              ∀ x ∈ c.cells, 1 ≤ x.span := by
            intro c hc
            rcases List.mem_or_eq_of_mem_set hc with hm | hval
            · exact h4 c hm
            · subst hval
              apply absorb_one_le
              intro x hxx
              apply h4 srcCol hmemsrc
              rw [hrest] at hxx
              exact List.mem_of_mem_eraseIdx hxx
          have hWC : ∀ c ∈ b.columns.set sc.toNat
              { srcCol with cells := absorbSpanAfterRemoval rest si moved.span },
              c.cells ≠ [] := by
            intro c hc
            rcases List.mem_or_eq_of_mem_set hc with hm | hval
            · exact h5 c hm
            · subst hval
              exact absorb_ne_nil _ _ hrestne
          have hWD : ∀ c ∈ b.columns.set sc.toNat
              { srcCol with cells := absorbSpanAfterRemoval rest si moved.span },
              0 < c.frac := by
            intro c hc
            rcases List.mem_or_eq_of_mem_set hc with hm | hval
            · exact h6 c hm
            · subst hval
              exact h6 srcCol hmemsrc
          have hWsum : sumFracs (b.columns.set sc.toNat
              { srcCol with cells := absorbSpanAfterRemoval rest si moved.span }) = 1 := by
            have hset := sumFracs_set
              { srcCol with cells := absorbSpanAfterRemoval rest si moved.span } hx
            simp only at hset
            linarith
          have hfin := valid_cross_finish moved di htg hWA hWB hWC hWD h2
            (by simpa only [dragWorking, if_neg hemp] using hfit2)
          rw [if_neg (by simp)]
          exact hfin.2 hWsum

theorem valid_applyCommand {b : BoardState} (c : Command) (hv : ValidBoard b)
    (hs : safeCommand b c = true) : ValidBoard (applyCommand b c) := by
  cases c with
  | addColumn => exact valid_handleAddColumn hv
  | addCell i => exact valid_handleAddCellSpec i hv hs
  | deleteCell i j => exact valid_handleDeleteCell i j hv
  | deleteColumn i => exact valid_handleDeleteColumnSpec i hv
  | dragMove q sc si =>
    apply valid_dragEndCore q sc si hv
    simpa only [safeCommand] using hs

/-- C1 (amended): starting from a board satisfying I1-I5 (with positive
fracs, per the §3 data model), any sequence of add-column, add-cell,
delete-cell, delete-column and drag-move commands preserves I1-I5,
provided every command that inserts a cell (a cross-column drag-move or
an add-cell) targets a column that still has room for one more cell,
i.e. at most `rows - 1` cells.  Fraction sums are exact rationals here,
hence within any tolerance.  Without the capacity proviso the original
claim is false: see the counterexample. -/
theorem claim1_invariants_preserved (b : BoardState) (cmds : List Command)
    (hv : ValidBoard b) (hs : safeCommands b cmds = true) :
    ValidBoard (applyCommands b cmds) := by
  induction cmds generalizing b with
  | nil => exact hv
  | cons c rest ih =>
    simp only [safeCommands, Bool.and_eq_true] at hs
    exact ih (applyCommand b c) (valid_applyCommand c hv hs.1) hs.2

/-- C1 witness: a concrete valid one-column board, an add-column
followed by a delete-cell, all capacity-safe; the invariants hold
afterwards by the theorem. -/
theorem claim1_invariants_preserved_witness :
    ValidBoard { columns := [{ frac := 1, cells := [{ span := 1 }] }], rowFracs := [1] } ∧
    safeCommands { columns := [{ frac := 1, cells := [{ span := 1 }] }], rowFracs := [1] } [Command.addColumn, Command.deleteCell 0 0] = true ∧
    ValidBoard (applyCommands { columns := [{ frac := 1, cells := [{ span := 1 }] }], rowFracs := [1] } [Command.addColumn, Command.deleteCell 0 0]) :=
  ⟨by simp [ValidBoard, sumFracs, sumSpans], rfl,
    claim1_invariants_preserved _ [Command.addColumn, Command.deleteCell 0 0]
      (by simp [ValidBoard, sumFracs, sumSpans]) rfl⟩

/-- C1 counterexample: the claim as stated (no capacity proviso) is
false.  On a valid two-row board with two two-cell columns, dragging the
first cell of column 0 onto the `top` quadrant of column 1's first cell
gives column 1 three cells whose spans are all forced to 1, summing to 3
while the row count is 2, violating I3. -/
theorem claim1_counterexample :
    ValidBoard { columns := [{ frac := 1/2, cells := [{ span := 1 }, { span := 1 }] }, { frac := 1/2, cells := [{ span := 1 }, { span := 1 }] }], rowFracs := [1/2, 1/2] } ∧
    ¬ ValidBoard (applyCommands { columns := [{ frac := 1/2, cells := [{ span := 1 }, { span := 1 }] }, { frac := 1/2, cells := [{ span := 1 }, { span := 1 }] }], rowFracs := [1/2, 1/2] } [Command.dragMove ⟨1, 0, Direction.top⟩ 0 0]) := by
  constructor
  · norm_num [ValidBoard, sumFracs, sumSpans, List.cons_ne_nil]
  · intro hv
    have hcols : (applyCommands { columns := [{ frac := 1/2, cells := [{ span := 1 }, { span := 1 }] }, { frac := 1/2, cells := [{ span := 1 }, { span := 1 }] }], rowFracs := [1/2, 1/2] } [Command.dragMove ⟨1, 0, Direction.top⟩ 0 0]).columns = [{ frac := 1/2, cells := [{ span := 2 }] }, { frac := 1/2, cells := [{ span := 1 }, { span := 1 }, { span := 1 }] }] := rfl
    have h3 := hv.2.2.1 { frac := 1/2, cells := [{ span := 1 }, { span := 1 }, { span := 1 }] }
      (by rw [hcols]; simp)
    have hrows : (applyCommands { columns := [{ frac := 1/2, cells := [{ span := 1 }, { span := 1 }] }, { frac := 1/2, cells := [{ span := 1 }, { span := 1 }] }], rowFracs := [1/2, 1/2] } [Command.dragMove ⟨1, 0, Direction.top⟩ 0 0]).rowFracs.length = 2 := rfl
    rw [hrows] at h3
    simp [sumSpans] at h3

theorem listGetInt?_nonneg (l : List α) (i : Int) (h0 : 0 ≤ i) :
    listGetInt? l i = l[i.toNat]? := by
  unfold listGetInt?
  rw [if_neg (by omega)]

theorem directionStep_eq_spec (columns : List Column) (q : QuadrantIdentifier)
    (h0 : 0 ≤ q.columnIndex) (h1 : q.columnIndex.toNat < columns.length)
    (h2 : 0 ≤ q.cellIndex)
    (h3 : q.cellIndex.toNat < (columns.get ⟨q.columnIndex.toNat, h1⟩).cells.length) :
    directionStep columns q = specDirectionTable columns q := by
  obtain ⟨qc, ci, dir⟩ := q
  simp only at h0 h1 h2 h3
  cases dir with
  | top => rfl
  | bottom => rfl
  | left =>
    simp only [directionStep, specDirectionTable]
    by_cases hz : qc = 0
    · rw [if_pos (by omega), if_pos hz]
    · rw [if_neg (by omega), if_neg hz]
  | right =>
    simp only [directionStep, specDirectionTable]
    by_cases hz : qc + 1 ≥ (columns.length : Int)
    · rw [if_pos hz, if_pos (by omega)]
      have hg : columns[qc.toNat]? = some (columns.get ⟨qc.toNat, h1⟩) := by
        rw [List.getElem?_eq_getElem h1]
        rfl
      have hcl : cellsLenAt columns qc
          = ((columns.get ⟨qc.toNat, h1⟩).cells.length : Int) := by
        unfold cellsLenAt
        rw [listGetInt?_nonneg _ _ h0, hg]
      rw [hcl]
      unfold iclamp
      congr 1
      omega
    · rw [if_neg hz, if_neg (by omega)]

/-- C2: for every board, every in-range quadrant target and every drag
source position, `resolveDestination` returns exactly the pair given by
the specification's direction table (§4.2) — `top`/`bottom` insert at
the target cell index / index + 1 in the target column, `left`/`right`
move to the neighboring column with the insert index clamped to its cell
count, falling back to the target column at index / index + 1 at the
board's edges — composed with the same-column correction (the subject of
C3). -/
theorem claim2_direction_table (columns : List Column) (q : QuadrantIdentifier)
    (sc : Int) (si : ℕ) (h0 : 0 ≤ q.columnIndex) (h1 : q.columnIndex.toNat < columns.length)
    (h2 : 0 ≤ q.cellIndex)
    (h3 : q.cellIndex.toNat < (columns.get ⟨q.columnIndex.toNat, h1⟩).cells.length) :
    resolveDestination columns q sc si
      = some (sameColumnFix sc si (specDirectionTable columns q)) := by
  have hg : columns[q.columnIndex.toNat]? = some (columns.get ⟨q.columnIndex.toNat, h1⟩) := by
    rw [List.getElem?_eq_getElem h1]
    rfl
  have hli : listGetInt? columns q.columnIndex
      = some (columns.get ⟨q.columnIndex.toNat, h1⟩) := by
    rw [listGetInt?_nonneg _ _ h0, hg]
  unfold resolveDestination
  rw [hli, directionStep_eq_spec columns q h0 h1 h2 h3]

/-- C2 witness: on a two-column board, a `right` drop on the last
column's first cell falls back to the target column at cell index 1. -/
theorem claim2_direction_table_witness :
    resolveDestination [{ frac := 1, cells := [{ span := 1 }] }, { frac := 1, cells := [{ span := 1 }, { span := 1 }] }] ⟨1, 0, Direction.right⟩ 0 0 = some (1, 1) := by
  rw [claim2_direction_table _ _ 0 0 (by decide) (by decide) (by decide) (by decide)]
  rfl

/-- C3: when the resolved destination column equals the drag source's
column and the direction-computed insertion index exceeds the source's
index, `resolveDestination` decrements the index by exactly one;
otherwise (same column with index ≤ source index, or a different
column) the index is returned unchanged. -/
theorem claim3_same_column_correction (columns : List Column) (q : QuadrantIdentifier)
    (sc : Int) (si : ℕ) (target : Column)
    (ht : listGetInt? columns q.columnIndex = some target) :
    ((directionStep columns q).1 = sc → (si : Int) < (directionStep columns q).2 →
      resolveDestination columns q sc si
        = some ((directionStep columns q).1, (directionStep columns q).2 - 1)) ∧
    ((directionStep columns q).1 = sc → (directionStep columns q).2 ≤ (si : Int) →
      resolveDestination columns q sc si = some (directionStep columns q)) ∧
    ((directionStep columns q).1 ≠ sc →
      resolveDestination columns q sc si = some (directionStep columns q)) := by
  unfold resolveDestination
  rw [ht]
  dsimp only
  refine ⟨?_, ?_, ?_⟩
  · intro hc hi
    simp only [sameColumnFix]
    rw [if_pos ⟨hc, by omega⟩]
  · intro hc hi
    simp only [sameColumnFix]
    rw [if_neg (fun hand => absurd hand.2 (by omega))]
  · intro hc
    simp only [sameColumnFix]
    rw [if_neg (fun hand => hc hand.1)]

/-- C3 witness: a `bottom` drop on the source's own cell computes index
1 and, being greater than the source index 0, is decremented to 0. -/
theorem claim3_same_column_correction_witness :
    resolveDestination [{ frac := 1, cells := [{ span := 1 }, { span := 1 }] }] ⟨0, 0, Direction.bottom⟩ 0 0 = some (0, 0) := by
  have h := (claim3_same_column_correction
    [{ frac := 1, cells := [{ span := 1 }, { span := 1 }] }] ⟨0, 0, Direction.bottom⟩ 0 0
    { frac := 1, cells := [{ span := 1 }, { span := 1 }] } rfl).1 rfl (by decide)
  exact h.trans rfl

/-- C4 (amended): for every non-empty cell list with
`rows >= len(cells)`, `clampSpansToRows` keeps the cell count, returns
spans that are all at least 1 and whose total is exactly `rows`; when
`rows < len(cells)` every span is forced to 1 and the returned total
equals `len(cells)`, which exceeds `rows` — it never falls short of it
(the original claim's direction is reversed: see the counterexample). -/
theorem claim4_clampSpansToRows (cells : List Cell) (rows : ℕ) (p? : Option ℕ) :
    (cells ≠ [] → cells.length ≤ rows →
      (clampSpansToRows cells rows p?).length = cells.length ∧
      (∀ c ∈ clampSpansToRows cells rows p?, 1 ≤ c.span) ∧
      sumSpans (clampSpansToRows cells rows p?) = rows) ∧
    (rows < cells.length →
      (∀ c ∈ clampSpansToRows cells rows p?, c.span = 1) ∧
      sumSpans (clampSpansToRows cells rows p?) = cells.length) := by
  constructor
  · intro hne hlen
    exact ⟨clampSpansToRows_length _ _ _, clampSpansToRows_one_le _ _ _,
      clampSpansToRows_sum _ _ _ hne hlen⟩
  · intro hlt
    exact ⟨clampSpansToRows_all_one _ _ _ hlt, sumSpans_clampSpansToRows_overfull _ _ _ hlt⟩

/-- C4 witness: spans [1, 2] reconcile to total 4 with 4 rows; spans
[1, 1, 1] against 2 rows are all forced to 1 with total 3. -/
theorem claim4_clampSpansToRows_witness :
    sumSpans (clampSpansToRows [{ span := 1 }, { span := 2 }] 4 none) = 4 ∧
    sumSpans (clampSpansToRows [{ span := 1 }, { span := 1 }, { span := 1 }] 2 none) = 3 :=
  ⟨((claim4_clampSpansToRows [{ span := 1 }, { span := 2 }] 4 none).1
      (by decide) (by decide)).2.2,
   ((claim4_clampSpansToRows [{ span := 1 }, { span := 1 }, { span := 1 }] 2 none).2
      (by decide)).2⟩

/-- C4 counterexample: with two span-1 cells and a single row
(`rows < len(cells)`), the returned total is 2 — strictly above `rows`,
so it exceeds rather than "falls short of" the row count. -/
theorem claim4_counterexample :
    sumSpans (clampSpansToRows [{ span := 1 }, { span := 1 }] 1 none) = 2 ∧
    1 < sumSpans (clampSpansToRows [{ span := 1 }, { span := 1 }] 1 none) := by
  decide

/-- C5: a drop with no destination, an unparseable destination locator,
an unparseable source locator, or a quadrant whose column index does not
exist in the board leaves the board unchanged; and `resolveDestination`
returns `null` exactly when the target column index is absent. -/
theorem claim5_noop_on_malformed (b : BoardState) (r : DropResult) :
    (r.destination = none → handleDragEnd b r = b) ∧
    (∀ dest, r.destination = some dest → parseQuadrantId dest.droppableId = none →
      handleDragEnd b r = b) ∧
    (∀ dest, r.destination = some dest →
      parseColumnDroppableId r.source.droppableId = none → handleDragEnd b r = b) ∧
    (∀ q sc si, resolveDestination b.columns q sc si = none ↔
      listGetInt? b.columns q.columnIndex = none) ∧
    (∀ dest q, r.destination = some dest → parseQuadrantId dest.droppableId = some q →
      listGetInt? b.columns q.columnIndex = none → handleDragEnd b r = b) := by
  refine ⟨?_, ?_, ?_, ?_, ?_⟩
  · intro hd
    unfold handleDragEnd
    rw [hd]
  · intro dest hd hp
    unfold handleDragEnd
    rw [hd]
    dsimp only
    rw [hp]
  · intro dest hd hp
    unfold handleDragEnd
    rw [hd]
    dsimp only
    cases hq : parseQuadrantId dest.droppableId with
    | none => rfl
    | some q =>
      dsimp only
      rw [hp]
  · intro q sc si
    unfold resolveDestination
    cases hg : listGetInt? b.columns q.columnIndex with
    | none => simp
    | some c => simp
  · intro dest q hd hp habs
    unfold handleDragEnd
    rw [hd]
    dsimp only
    rw [hp]
    dsimp only
    cases hsc : parseColumnDroppableId r.source.droppableId with
    | none => rfl
    | some scIdx =>
      dsimp only
      unfold dragEndCore
      have hres : resolveDestination b.columns q scIdx r.source.index = none := by
        unfold resolveDestination
        rw [habs]
      rw [hres]

/-- C5 witness: a drop whose destination id is the unparseable `x`
leaves a concrete board unchanged. -/
theorem claim5_noop_on_malformed_witness :
    handleDragEnd { columns := [], rowFracs := [] } { destination := some ⟨['x'], 0⟩, source := ⟨['c', 'o', 'l', '-', '0'], 0⟩ } = { columns := [], rowFracs := [] } :=
  (claim5_noop_on_malformed { columns := [], rowFracs := [] }
    { destination := some ⟨['x'], 0⟩, source := ⟨['c', 'o', 'l', '-', '0'], 0⟩ }).2.1
    ⟨['x'], 0⟩ rfl (by decide)

/-- C6: adding a column to an empty board creates a single column with
frac 1 and one cell spanning all rows; with `n ≥ 1` existing columns and
fraction sum 1 (I1), it appends a new column holding exactly one cell
with span equal to the row count and frac `1/(n+1)`, multiplies every
existing frac by `1 - 1/(n+1)`, and the resulting frac set sums to
exactly 1 (the renormalization is the identity on an exact sum). -/
theorem claim6_addColumn (b : BoardState) :
    (b.columns = [] → (handleAddColumn b).columns
      = [{ frac := 1, cells := [{ span := b.rowFracs.length }] }]) ∧
    (b.columns ≠ [] → sumFracs b.columns = 1 →
      (handleAddColumn b).columns
        = (b.columns.map (fun c => { c with frac := c.frac * (1 - 1 / ((b.columns.length : ℚ) + 1)) }))
          ++ [{ frac := 1 / ((b.columns.length : ℚ) + 1), cells := [{ span := b.rowFracs.length }] }] ∧
      sumFracs (handleAddColumn b).columns = 1) := by
  constructor
  · intro hnil
    have hz : b.columns.length = 0 := by rw [hnil]; rfl
    simp only [handleAddColumn, if_pos hz]
  · intro hne hsum
    have hz : ¬ (b.columns.length = 0) := by
      intro hc
      exact hne (List.eq_nil_of_length_eq_zero hc)
    simp only [handleAddColumn, if_neg hz]
    have hLsum : sumFracs
        ((b.columns.map (fun c =>
          { c with frac := c.frac * (1 - 1 / ((b.columns.length : ℚ) + 1)) })) ++
          [{ frac := 1 / ((b.columns.length : ℚ) + 1),
             cells := [{ span := b.rowFracs.length }] }]) = 1 := by
      rw [sumFracs_append, sumFracs_map_mul, hsum]
      simp [sumFracs]
    rw [normalizeFracs_eq_self _ hLsum]
    exact ⟨rfl, hLsum⟩

/-- C6 witness: adding a column to a one-column board and to an empty
board; the new frac set sums to 1 and the empty board gets frac 1. -/
theorem claim6_addColumn_witness :
    sumFracs (handleAddColumn { columns := [{ frac := 1, cells := [{ span := 1 }] }], rowFracs := [1] }).columns = 1 ∧
    (handleAddColumn { columns := [], rowFracs := [1] }).columns = [{ frac := 1, cells := [{ span := 1 }] }] :=
  ⟨((claim6_addColumn { columns := [{ frac := 1, cells := [{ span := 1 }] }], rowFracs := [1] }).2
      (by simp) (by simp [sumFracs])).2,
   (claim6_addColumn { columns := [], rowFracs := [1] }).1 rfl⟩

theorem applyPairFracs_getElem? (cols : List Column) (i : ℕ) (l r : ℚ) (j : ℕ) :
    (applyPairFracs cols i l r)[j]? =
      if j = i then (cols[j]?).map (fun c => { c with frac := l })
      else if j = i + 1 then (cols[j]?).map (fun c => { c with frac := r })
      else cols[j]? := by
  induction cols generalizing i j with
  | nil =>
    simp only [applyPairFracs]
    split_ifs <;> simp
  | cons c rest ih =>
    cases i with
    | zero =>
      cases j with
      | zero => simp [applyPairFracs]
      | succ k =>
        cases rest with
        | nil =>
          cases k with
          | zero => simp [applyPairFracs]
          | succ m => simp [applyPairFracs]
        | cons c2 rest2 =>
          cases k with
          | zero => simp [applyPairFracs]
          | succ m => simp [applyPairFracs]
    | succ n =>
      cases j with
      | zero =>
        simp only [applyPairFracs, List.getElem?_cons_zero]
        rw [if_neg (by omega : ¬ (0 : ℕ) = n + 1), if_neg (by omega : ¬ (0 : ℕ) = n + 1 + 1)]
      | succ k =>
        simp only [applyPairFracs, List.getElem?_cons_succ]
        rw [ih n k]
        by_cases h1 : k = n
        · rw [if_pos h1, if_pos (by omega : k + 1 = n + 1)]
        · rw [if_neg h1, if_neg (by omega : ¬ k + 1 = n + 1)]
          by_cases h2 : k = n + 1
          · rw [if_pos h2, if_pos (by omega : k + 1 = n + 1 + 1)]
          · rw [if_neg h2, if_neg (by omega : ¬ k + 1 = n + 1 + 1)]

theorem applyPairFracs_length (cols : List Column) (i : ℕ) (l r : ℚ) :
    (applyPairFracs cols i l r).length = cols.length := by
  induction cols generalizing i with
  | nil => rfl
  | cons c rest ih =>
    cases i with
    | zero =>
      cases rest with
      | nil => rfl
      | cons c2 rest2 => rfl
    | succ n =>
      simp only [applyPairFracs, List.length_cons]
      rw [ih]

theorem sumFracs_applyPairFracs (cols : List Column) (i : ℕ) (l r : ℚ)
    (h : i + 1 < cols.length) :
    sumFracs (applyPairFracs cols i l r)
        + (cols.get ⟨i, by omega⟩).frac + (cols.get ⟨i + 1, h⟩).frac
      = sumFracs cols + l + r := by
  induction cols generalizing i with
  | nil => simp at h
  | cons c rest ih =>
    cases i with
    | zero =>
      cases rest with
      | nil => simp at h
      | cons c2 rest2 =>
        simp only [applyPairFracs, sumFracs, List.map_cons, List.sum_cons]
        show l + (r + _) + c.frac + c2.frac = c.frac + (c2.frac + _) + l + r
        ring
    | succ n =>
      have h2 : n + 1 < rest.length := by simpa using h
      have hih := ih n h2
      simp only [applyPairFracs, sumFracs, List.map_cons, List.sum_cons] at hih ⊢
      simp only [List.get_cons_succ]
      linarith

/-- C7: a pointer-move sample of a resize between adjacent elements i
and i+1 (columns or rows) sets element i's fraction to the
gesture-start fraction plus the pixel delta divided by the container
size, clamped to `[effectiveMin, combined - effectiveMin]` where
`combined` is the snapshotted pair sum and
`effectiveMin = min minFrac (combined/2)`; element i+1 receives the
remainder, every other element is unchanged, and the global fraction
sum is conserved. -/
theorem claim7_resize_sample (init : List ℚ) (i : ℕ) (minFrac deltaPx width : ℚ)
    (cols : List Column) (h : i + 1 < cols.length)
    (hsnap : (cols.get ⟨i, by omega⟩).frac + (cols.get ⟨i + 1, h⟩).frac
      = resizePairTotal init i) :
    (columnResizeSample init i minFrac deltaPx width cols)[i]? =
      (cols[i]?).map (fun c => { c with frac := resizeNextLeft init i minFrac deltaPx width }) ∧
    (columnResizeSample init i minFrac deltaPx width cols)[i + 1]? =
      (cols[i + 1]?).map (fun c => { c with frac := resizePairTotal init i - resizeNextLeft init i minFrac deltaPx width }) ∧
    (∀ j, j ≠ i → j ≠ i + 1 →
      (columnResizeSample init i minFrac deltaPx width cols)[j]? = cols[j]?) ∧
    sumFracs (columnResizeSample init i minFrac deltaPx width cols) = sumFracs cols ∧
    (columnResizeSample init i minFrac deltaPx width cols).length = cols.length ∧
    (∀ (rows : List ℚ) (hr : i + 1 < rows.length),
      rows.get ⟨i, by omega⟩ + rows.get ⟨i + 1, hr⟩ = resizePairTotal init i →
      (rowResizeSample init i minFrac deltaPx width rows)[i]?
          = some (resizeNextLeft init i minFrac deltaPx width) ∧
      (rowResizeSample init i minFrac deltaPx width rows)[i + 1]?
          = some (resizePairTotal init i - resizeNextLeft init i minFrac deltaPx width) ∧
      (∀ j : ℕ, j ≠ i → j ≠ i + 1 →
        (rowResizeSample init i minFrac deltaPx width rows)[j]? = rows[j]?) ∧
      (rowResizeSample init i minFrac deltaPx width rows).sum = rows.sum ∧
      (rowResizeSample init i minFrac deltaPx width rows).length = rows.length) := by
  have hunf : columnResizeSample init i minFrac deltaPx width cols =
      applyPairFracs cols i (resizeNextLeft init i minFrac deltaPx width)
        (resizePairTotal init i - resizeNextLeft init i minFrac deltaPx width) := by
    simp only [columnResizeSample, resizeNextLeft, resizeEffectiveMin, resizePairTotal]
  refine ⟨?_, ?_, ?_, ?_, ?_, ?_⟩
  · rw [hunf, applyPairFracs_getElem?, if_pos rfl]
  · rw [hunf, applyPairFracs_getElem?, if_neg (by omega), if_pos rfl]
  · intro j hj1 hj2
    rw [hunf, applyPairFracs_getElem?, if_neg hj1, if_neg hj2]
  · rw [hunf]
    have hsum := sumFracs_applyPairFracs cols i
      (resizeNextLeft init i minFrac deltaPx width)
      (resizePairTotal init i - resizeNextLeft init i minFrac deltaPx width) h
    linarith
  · rw [hunf]
    exact applyPairFracs_length _ _ _ _
  · intro rows hr hsnap2
    have hi : i < rows.length := by omega
    have hunf2 : rowResizeSample init i minFrac deltaPx width rows =
        (rows.set i (resizeNextLeft init i minFrac deltaPx width)).set (i + 1)
          (resizePairTotal init i - resizeNextLeft init i minFrac deltaPx width) := by
      simp only [rowResizeSample, resizeNextLeft, resizeEffectiveMin, resizePairTotal]
    have hset1 : (rows.set i (resizeNextLeft init i minFrac deltaPx width)).length = rows.length :=
      List.length_set rows i (resizeNextLeft init i minFrac deltaPx width)
    refine ⟨?_, ?_, ?_, ?_, ?_⟩
    · rw [hunf2, List.getElem?_set_ne (by omega : i + 1 ≠ i), List.getElem?_set_self hi]
    · rw [hunf2, List.getElem?_set_self (by simpa using hr)]
    · intro j hj1 hj2
      rw [hunf2, List.getElem?_set_ne (Ne.symm hj2), List.getElem?_set_ne (Ne.symm hj1)]
    · have h1 : rows[i]? = some (rows.get ⟨i, hi⟩) := by
        rw [List.getElem?_eq_getElem hi]
        rfl
      have h2 : (rows.set i (resizeNextLeft init i minFrac deltaPx width))[i + 1]?
          = some (rows.get ⟨i + 1, hr⟩) := by
        rw [List.getElem?_set_ne (by omega : i ≠ i + 1), List.getElem?_eq_getElem hr]
        rfl
      have hs2 := sum_set_add
        (resizePairTotal init i - resizeNextLeft init i minFrac deltaPx width) h2
      have hs1 := sum_set_add (resizeNextLeft init i minFrac deltaPx width) h1
      rw [hunf2]
      linarith
    · rw [hunf2, List.length_set, List.length_set]

/-- C7 witness: spec §8 Scenario D — two half-width columns, a 200px
container, minimum fraction 7/10 (exceeding half the combined share), a
100px drag: the effective minimum collapses to 1/2, the drag is fully
clamped and both fracs remain 1/2. -/
theorem claim7_resize_sample_witness :
    (columnResizeSample [1/2, 1/2] 0 (7/10) 100 200
      [{ frac := 1/2, cells := [{ span := 1 }] }, { frac := 1/2, cells := [{ span := 1 }] }])[0]? =
      some { frac := 1/2, cells := [{ span := 1 }] } := by
  have h := (claim7_resize_sample [1/2, 1/2] 0 (7/10) 100 200
    [{ frac := 1/2, cells := [{ span := 1 }] }, { frac := 1/2, cells := [{ span := 1 }] }]
    (by decide) (by norm_num [resizePairTotal, List.getD])).1
  rw [h]
  norm_num [resizeNextLeft, resizeEffectiveMin, resizePairTotal, qclamp, List.getD]

theorem applyPairFracs_applyPairFracs (cols : List Column) (i : ℕ) (l1 r1 l2 r2 : ℚ) :
    applyPairFracs (applyPairFracs cols i l1 r1) i l2 r2 = applyPairFracs cols i l2 r2 := by
  induction cols generalizing i with
  | nil => rfl
  | cons c rest ih =>
    cases i with
    | zero =>
      cases rest with
      | nil => rfl
      | cons c2 rest2 => rfl
    | succ n =>
      simp only [applyPairFracs]
      rw [ih]

/-- C8: within one resize gesture every sample recomputes the pair from
the gesture-start snapshot, so applying a sample with cumulative delta d
after any sequence of earlier samples produces exactly the board
obtained by applying that sample directly to the gesture-start state. -/
theorem claim8_resize_idempotent (init : List ℚ) (i : ℕ) (minFrac width : ℚ)
    (ds : List ℚ) (d : ℚ) (cols : List Column) :
    columnResizeSample init i minFrac d width
      (ds.foldl (fun acc d0 => columnResizeSample init i minFrac d0 width acc) cols)
      = columnResizeSample init i minFrac d width cols := by
  induction ds generalizing cols with
  | nil => rfl
  | cons d0 rest ih =>
    rw [List.foldl_cons, ih (columnResizeSample init i minFrac d0 width cols)]
    simp only [columnResizeSample]
    exact applyPairFracs_applyPairFracs cols i _ _ _ _

/-- C9: when `from` is out of range `arrayMove` returns the original
list unchanged; when it is in range the result is obtained by removing
the element at `from` and reinserting it at `to` clamped to
`[0, items.length - 1]`: the length and the multiset of elements are
preserved, the moved element occupies the clamped position, and erasing
it there recovers the remaining elements in their original relative
order. -/
theorem claim9_arrayMove (items : List α) (fr toIdx : Nat) :
    (items.length ≤ fr → arrayMove items fr toIdx = items) ∧
    ∀ h : fr < items.length,
      arrayMove items fr toIdx
          = (items.eraseIdx fr).insertIdx (min toIdx (items.length - 1)) (items.get ⟨fr, h⟩) ∧
      (arrayMove items fr toIdx).length = items.length ∧
      (arrayMove items fr toIdx).Perm items ∧
      (arrayMove items fr toIdx)[min toIdx (items.length - 1)]? = some (items.get ⟨fr, h⟩) ∧
      (arrayMove items fr toIdx).eraseIdx (min toIdx (items.length - 1)) = items.eraseIdx fr := by
  constructor
  · intro hge
    have hnone : items[fr]? = none := List.getElem?_eq_none hge
    simp only [arrayMove, spliceOut, hnone]
  · intro h
    have hget : items[fr]? = some (items.get ⟨fr, h⟩) := by
      rw [List.getElem?_eq_getElem h]
      rfl
    have hlen : (items.eraseIdx fr).length = items.length - 1 := by
      rw [List.length_eraseIdx]
      simp [h]
    have hmin : min toIdx (items.length - 1) ≤ (items.eraseIdx fr).length := by
      rw [hlen]
      omega
    have hmain : arrayMove items fr toIdx
        = (items.eraseIdx fr).insertIdx (min toIdx (items.length - 1)) (items.get ⟨fr, h⟩) := by
      simp only [arrayMove, spliceOut, hget]
      have hb : (if toIdx > (items.eraseIdx fr).length then (items.eraseIdx fr).length else toIdx)
          = min toIdx (items.length - 1) := by
        rw [hlen]
        by_cases hc : toIdx > items.length - 1
        · rw [if_pos hc]
          omega
        · rw [if_neg hc]
          omega
      rw [hb]
    refine ⟨hmain, ?_, ?_, ?_, ?_⟩
    · rw [hmain, List.length_insertIdx _ _ hmin, hlen]
      omega
    · rw [hmain]
      exact ((List.perm_insertIdx _ _ hmin).trans (perm_cons_eraseIdx hget).symm)
    · rw [hmain]
      have hl2 : min toIdx (items.length - 1)
          < ((items.eraseIdx fr).insertIdx (min toIdx (items.length - 1)) (items.get ⟨fr, h⟩)).length := by
        rw [List.length_insertIdx _ _ hmin]
        omega
      rw [List.getElem?_eq_getElem hl2]
      rw [List.getElem_insertIdx_self (items.eraseIdx fr) (items.get ⟨fr, h⟩)
        (min toIdx (items.length - 1)) hmin]
    · rw [hmain, List.eraseIdx_insertIdx]

/-- C9 witness: moving index 0 of `[10, 20, 30]` to the out-of-bounds
target 5 lands it at the clamped last position. -/
theorem claim9_arrayMove_witness : arrayMove [10, 20, 30] 0 5 = [20, 30, 10] := by
  have h1 := ((claim9_arrayMove [10, 20, 30] 0 5).2 (by decide)).1
  rw [h1]
  decide

theorem lookupTasks_eraseTasksKey_self (m : List (Nat × List Task)) (k : Nat) :
    lookupTasks (eraseTasksKey m k) k = none := by
  induction m with
  | nil => rfl
  | cons e t ih =>
    by_cases he : e.1 = k
    · simpa [eraseTasksKey, List.filter_cons, he] using ih
    · simp [eraseTasksKey, lookupTasks, List.filter_cons, List.find?_cons, he]

theorem lookupTasks_eraseTasksKey_other (m : List (Nat × List Task)) (k k2 : Nat)
    (h : k2 ≠ k) :
    lookupTasks (eraseTasksKey m k) k2 = lookupTasks m k2 := by
  induction m with
  | nil => rfl
  | cons e t ih =>
    by_cases he : e.1 = k
    · have hkk : ¬ k = k2 := fun hh => h hh.symm
      simpa [eraseTasksKey, lookupTasks, List.filter_cons, List.find?_cons, he, hkk] using ih
    · by_cases he2 : e.1 = k2
      · simp [eraseTasksKey, lookupTasks, List.filter_cons, List.find?_cons, he, he2, h]
      · simpa [eraseTasksKey, lookupTasks, List.filter_cons, List.find?_cons, he, he2] using ih

/-- C10: in the simple-board variant, deleting a cell never deletes a
column: the column count and positional column identities are unchanged,
columns other than the named one keep their exact value, the named
column keeps every cell except the deleted one (possibly ending up
empty), the deleted cell's task entry disappears, and every other task
entry is untouched. -/
theorem claim10_simple_delete_cell (b : SimpleBoardState) (columnId cellId : Nat) :
    (simpleDeleteCell b columnId cellId).columns.length = b.columns.length ∧
    (∀ j : ℕ, ((simpleDeleteCell b columnId cellId).columns[j]?).map SimpleColumn.id
        = (b.columns[j]?).map SimpleColumn.id) ∧
    (∀ (j : ℕ) (c : SimpleColumn), b.columns[j]? = some c → c.id ≠ columnId →
      (simpleDeleteCell b columnId cellId).columns[j]? = some c) ∧
    (∀ (j : ℕ) (c : SimpleColumn), b.columns[j]? = some c → c.id = columnId →
      (simpleDeleteCell b columnId cellId).columns[j]?
        = some { c with cells := c.cells.filter (fun cell => cell.id != cellId) }) ∧
    lookupTasks (simpleDeleteCell b columnId cellId).tasksByCell cellId = none ∧
    (∀ k, k ≠ cellId →
      lookupTasks (simpleDeleteCell b columnId cellId).tasksByCell k
        = lookupTasks b.tasksByCell k) := by
  refine ⟨?_, ?_, ?_, ?_, ?_, ?_⟩
  · simp [simpleDeleteCell]
  · intro j
    simp only [simpleDeleteCell]
    rw [List.getElem?_map]
    cases hx : b.columns[j]? with
    | none => rfl
    | some c =>
      by_cases hc : c.id = columnId
      · simp [hc]
      · simp [hc]
  · intro j c hj hne
    simp only [simpleDeleteCell]
    rw [List.getElem?_map, hj]
    simp [hne]
  · intro j c hj hc
    simp only [simpleDeleteCell]
    rw [List.getElem?_map, hj]
    simp [hc]
  · exact lookupTasks_eraseTasksKey_self b.tasksByCell cellId
  · intro k hk
    exact lookupTasks_eraseTasksKey_other b.tasksByCell cellId k hk

/-- C10 witness: deleting cell 0 from column 0 of a two-column board
keeps both columns, leaves cell 1 in column 0 and removes the task entry
of cell 0. -/
theorem claim10_simple_delete_cell_witness :
    (simpleDeleteCell simpleBoardW 0 0).columns[0]? = some { id := 0, cells := [{ id := 1, height := 1 }] } ∧ lookupTasks (simpleDeleteCell simpleBoardW 0 0).tasksByCell 0 = none := by
  have h := claim10_simple_delete_cell simpleBoardW 0 0
  refine ⟨?_, h.2.2.2.2.1⟩
  have h4 := h.2.2.2.1 0 { id := 0, cells := [{ id := 0, height := 1 }, { id := 1, height := 1 }] } rfl rfl
  rw [h4]
  rfl

end Kanban
